import Mathlib

/-!
Verification of the gobblet retrograde-analysis solver (gobblet.cpp).

A game state is a 54-bit bitboard held in a 64-bit word: 6 bits for each of
the 3x3 = 9 squares, 2 bits for each piece size (layout 332211 from the LSB),
where a 2-bit field is 00 = no piece, 01 = piece of the player to move,
10 = opponent's piece.  The upper 10 bits of a stored hash-table word carry
the solved win/loss/draw value.

Machine integers are modelled as Nat with explicit reduction mod 2^64 where
the C++ code can overflow; the bit operations <<<, >>>, &&&, ||| and ^^^ on
Nat coincide with the C++ operations on uint64_t as long as intermediate
values stay below 2^64, which is established where needed.
-/

set_option maxHeartbeats 1000000

namespace Gobblet

/-! ## Generic bit-manipulation toolkit -/

/-- Extracting a contiguous bit field with a shifted all-ones mask is
arithmetic: shift down, reduce, shift back up. -/
theorem and_mask (x w l : Nat) :
    x &&& ((2 ^ w - 1) <<< l) = x / 2 ^ l % 2 ^ w * 2 ^ l := by
  have h : x / 2 ^ l % 2 ^ w * 2 ^ l = (x >>> l % 2 ^ w) <<< l := by
    rw [Nat.shiftLeft_eq, Nat.shiftRight_eq_div_pow]
  rw [h]
  apply Nat.eq_of_testBit_eq
  intro i
  simp only [Nat.testBit_and, Nat.testBit_shiftLeft, Nat.testBit_two_pow_sub_one,
    Nat.testBit_mod_two_pow, Nat.testBit_shiftRight]
  rcases Nat.lt_or_ge i l with h1 | h1
  · simp [Nat.not_le.mpr h1]
  · have e : l + (i - l) = i := by omega
    simp only [Nat.le_of_lt, h1, ge_iff_le, decide_eq_true_eq, e]
    cases hx : x.testBit i <;> cases hw : decide (i - l < w) <;> simp_all

/-- Disjoint bitwise or is addition (high part times a power of two plus a
small low part). -/
theorem add_eq_or {n : Nat} (b : Nat) (hb : b < 2 ^ n) (a : Nat) :
    a * 2 ^ n + b = a * 2 ^ n ||| b := by
  rw [Nat.mul_comm]
  exact Nat.mul_add_lt_is_or hb a

/-- testBit of a split word: low part below the split, high part above it. -/
theorem testBit_split {n b : Nat} (hb : b < 2 ^ n) (a j : Nat) :
    (a * 2 ^ n + b).testBit j = if j < n then b.testBit j else a.testBit (j - n) := by
  rw [Nat.mul_comm]
  exact Nat.testBit_mul_pow_two_add a hb j

/-- Exclusive or acts independently on the two halves of split words. -/
theorem xor_split {n a b c d : Nat} (hb : b < 2 ^ n) (hd : d < 2 ^ n) :
    (a * 2 ^ n + b) ^^^ (c * 2 ^ n + d) = (a ^^^ c) * 2 ^ n + (b ^^^ d) := by
  have h3 : b ^^^ d < 2 ^ n := Nat.xor_lt_two_pow hb hd
  apply Nat.eq_of_testBit_eq
  intro i
  simp only [Nat.testBit_xor, testBit_split hb, testBit_split hd, testBit_split h3]
  by_cases h : i < n <;> simp [h]

/-! ## State representation constants (class Game) -/

def STATE_EMPTY : Nat := 0x3

def STATE_MASK : Nat := (1 <<< 54) - 1

/-! ## Symmetry engine: swap, flipud, antitranspose, canonical -/

/-- Swap colors so it is always X to move: exchange the 01 and 10 patterns of
every 2-bit field (Game::swap). -/
def swap (s : Nat) : Nat :=
  ((s &&& 0x2aaaaaaaaaaaaa) >>> 1) ||| ((s &&& 0x15555555555555) <<< 1)

/-- Mirror board vertically, swapping top and bottom rows (Game::flipud). -/
def flipud (s : Nat) : Nat :=
  ((s <<< 36) &&& 0x3ffff000000000) ||| (s &&& 0xffffc0000) ||| (s >>> 36)

/-- Mirror board about the off-diagonal (Game::antitranspose). -/
def antitranspose (s : Nat) : Nat :=
  ((s <<< 48) &&& 0x3f000000000000) ||| ((s <<< 24) &&& 0xfc0fc0000000) |||
    (s &&& 0x3f03f03f000) ||| ((s >>> 24) &&& 0xfc0fc0) ||| (s >>> 48)

/-- Rotate/reflect board to the minimum representation (Game::canonical);
the eight candidates are produced by alternately applying flipud and
antitranspose, exactly as the C++ code does. -/
def canonical (s : Nat) : Nat :=
  let s1 := flipud s
  let m1 := min s1 s
  let s2 := antitranspose s1
  let m2 := min s2 m1
  let s3 := flipud s2
  let m3 := min s3 m2
  let s4 := antitranspose s3
  let m4 := min s4 m3
  let s5 := flipud s4
  let m5 := min s5 m4
  let s6 := antitranspose s5
  let m6 := min s6 m5
  let s7 := flipud s6
  min s7 m6

/-! ## Bit-level characterizations of the symmetry operations -/

/-- Index permutation realized by swap on bit positions: each even/odd pair
of bits within a 2-bit field is exchanged. -/
def swapBitPerm (i : Nat) : Nat := 2 * (i / 2) + (1 - i % 2)

/-- Index permutation realized by flipud on bit positions (rows of 18 bits:
top and bottom rows exchange). -/
def flipBitPerm (i : Nat) : Nat :=
  if i < 18 then i + 36 else if i < 36 then i else i - 36

/-- Index permutation realized by antitranspose on bit positions (squares of
6 bits permuted by the anti-diagonal reflection). -/
def antiBitPerm (i : Nat) : Nat :=
  if i < 6 then i + 48
  else if i < 12 then i + 24
  else if i < 18 then i
  else if i < 24 then i + 24
  else if i < 30 then i
  else if i < 36 then i - 24
  else if i < 42 then i
  else if i < 48 then i - 24
  else i - 48

theorem testBit_mask_odd (i : Nat) :
    (0x2aaaaaaaaaaaaa : Nat).testBit i = (decide (i < 54) && decide (i % 2 = 1)) := by
  by_cases h : i < 64
  · revert h
    revert i
    decide
  · have hc : (0x2aaaaaaaaaaaaa : Nat) < 2 ^ i := by
      calc (0x2aaaaaaaaaaaaa : Nat) < 2 ^ 64 := by norm_num
        _ ≤ 2 ^ i := Nat.pow_le_pow_right (by norm_num) (by omega)
    rw [Nat.testBit_lt_two_pow hc]
    have : ¬ i < 54 := by omega
    simp [this]

theorem testBit_mask_even (i : Nat) :
    (0x15555555555555 : Nat).testBit i = (decide (i < 54) && decide (i % 2 = 0)) := by
  by_cases h : i < 64
  · revert h
    revert i
    decide
  · have hc : (0x15555555555555 : Nat) < 2 ^ i := by
      calc (0x15555555555555 : Nat) < 2 ^ 64 := by norm_num
        _ ≤ 2 ^ i := Nat.pow_le_pow_right (by norm_num) (by omega)
    rw [Nat.testBit_lt_two_pow hc]
    have : ¬ i < 54 := by omega
    simp [this]

/-- Bit-level characterization of swap: bit i of the result is bit
swapBitPerm i of the argument, and the result lives in the low 54 bits. -/
theorem testBit_swap (s i : Nat) :
    (swap s).testBit i = (decide (i < 54) && s.testBit (swapBitPerm i)) := by
  unfold swap swapBitPerm
  rw [Bool.eq_iff_iff]
  simp only [Nat.testBit_or, Nat.testBit_shiftRight, Nat.testBit_shiftLeft,
    Nat.testBit_and, testBit_mask_odd, testBit_mask_even, ge_iff_le,
    Bool.or_eq_true, Bool.and_eq_true, decide_eq_true_eq]
  constructor
  · rintro (⟨hb, h1, h2⟩ | ⟨h1, hb, h2, h3⟩)
    · have e : 2 * (i / 2) + (1 - i % 2) = 1 + i := by omega
      rw [e]
      exact ⟨by omega, hb⟩
    · have e : 2 * (i / 2) + (1 - i % 2) = i - 1 := by omega
      rw [e]
      exact ⟨by omega, hb⟩
  · rintro ⟨h54, hb⟩
    rcases Nat.even_or_odd i with he | ho
    · have h2 : i % 2 = 0 := Nat.even_iff.mp he
      left
      have e : 2 * (i / 2) + (1 - i % 2) = 1 + i := by omega
      rw [e] at hb
      exact ⟨hb, by omega, by omega⟩
    · have h2 : i % 2 = 1 := Nat.odd_iff.mp ho
      right
      have e : 2 * (i / 2) + (1 - i % 2) = i - 1 := by omega
      rw [e] at hb
      exact ⟨by omega, hb, by omega, by omega⟩

/-- Helper: testBit of a contiguous-mask conjunction. -/
theorem testBit_maskTerm (x w l i : Nat) :
    (x &&& ((2 ^ w - 1) <<< l)).testBit i =
      (x.testBit i && (decide (l ≤ i) && decide (i - l < w))) := by
  simp [Nat.testBit_and, Nat.testBit_shiftLeft, Nat.testBit_two_pow_sub_one, ge_iff_le]

/-- Helper: bits at or above position 54 of a 54-bit value are clear. -/
theorem testBit_high {s : Nat} (hs : s < 2 ^ 54) {j : Nat} (hj : 54 ≤ j) :
    s.testBit j = false :=
  Nat.testBit_lt_two_pow
    (lt_of_lt_of_le hs (Nat.pow_le_pow_right (by norm_num) hj))

/-- Bit-level characterization of flipud on 54-bit states. -/
theorem testBit_flipud {s : Nat} (hs : s < 2 ^ 54) (i : Nat) :
    (flipud s).testBit i = (decide (i < 54) && s.testBit (flipBitPerm i)) := by
  have hm1 : (0x3ffff000000000 : Nat) = (2 ^ 18 - 1) <<< 36 := by decide
  have hm2 : (0xffffc0000 : Nat) = (2 ^ 18 - 1) <<< 18 := by decide
  unfold flipud
  rw [hm1, hm2, Bool.eq_iff_iff]
  simp only [Nat.testBit_or, testBit_maskTerm, Nat.testBit_shiftLeft,
    Nat.testBit_shiftRight, ge_iff_le, Bool.or_eq_true, Bool.and_eq_true,
    decide_eq_true_eq]
  constructor
  · rintro ((⟨⟨h1, hb⟩, h2, h3⟩ | ⟨hb, h2, h3⟩) | hb)
    · have e : flipBitPerm i = i - 36 := by
        unfold flipBitPerm
        split_ifs <;> omega
      rw [e]
      exact ⟨by omega, hb⟩
    · have e : flipBitPerm i = i := by
        unfold flipBitPerm
        split_ifs <;> omega
      rw [e]
      exact ⟨by omega, hb⟩
    · by_cases h18 : i < 18
      · have e : flipBitPerm i = 36 + i := by
          unfold flipBitPerm
          split_ifs <;> omega
        rw [e]
        exact ⟨by omega, hb⟩
      · rw [testBit_high hs (by omega)] at hb
        exact absurd hb (by simp)
  · rintro ⟨h54, hb⟩
    by_cases h18 : i < 18
    · right
      have e : 36 + i = flipBitPerm i := by
        unfold flipBitPerm
        split_ifs <;> omega
      rw [e]
      exact hb
    · by_cases h36 : i < 36
      · left
        right
        have e : flipBitPerm i = i := by
          unfold flipBitPerm
          split_ifs <;> omega
        rw [e] at hb
        exact ⟨hb, by omega, by omega⟩
      · left
        left
        have e : flipBitPerm i = i - 36 := by
          unfold flipBitPerm
          split_ifs <;> omega
        rw [e] at hb
        exact ⟨⟨by omega, hb⟩, by omega, by omega⟩

set_option maxHeartbeats 2000000 in
/-- Bit-level characterization of antitranspose on 54-bit states. -/
theorem testBit_antitranspose {s : Nat} (hs : s < 2 ^ 54) (i : Nat) :
    (antitranspose s).testBit i = (decide (i < 54) && s.testBit (antiBitPerm i)) := by
  have hm1 : (0x3f000000000000 : Nat) = (2 ^ 6 - 1) <<< 48 := by decide
  have hm2 : (0xfc0fc0000000 : Nat) = ((2 ^ 6 - 1) <<< 30) ||| ((2 ^ 6 - 1) <<< 42) := by decide
  have hm3 : (0x3f03f03f000 : Nat) =
      ((2 ^ 6 - 1) <<< 12) ||| (((2 ^ 6 - 1) <<< 24) ||| ((2 ^ 6 - 1) <<< 36)) := by decide
  have hm4 : (0xfc0fc0 : Nat) = ((2 ^ 6 - 1) <<< 6) ||| ((2 ^ 6 - 1) <<< 18) := by decide
  unfold antitranspose
  rw [hm1, hm2, hm3, hm4, Bool.eq_iff_iff]
  simp only [Nat.and_or_distrib_left, Nat.testBit_or, testBit_maskTerm,
    Nat.testBit_shiftLeft, Nat.testBit_shiftRight, ge_iff_le, Bool.or_eq_true,
    Bool.and_eq_true, decide_eq_true_eq]
  constructor
  · rintro ((((⟨⟨h1, hb⟩, h2, h3⟩ | (⟨⟨h1, hb⟩, h2, h3⟩ | ⟨⟨h1, hb⟩, h2, h3⟩)) |
        (⟨hb, h2, h3⟩ | (⟨hb, h2, h3⟩ | ⟨hb, h2, h3⟩))) |
        (⟨hb, h2, h3⟩ | ⟨hb, h2, h3⟩)) | hb)
    · -- (s <<< 48) with mask at 48: squares 8 <- 0
      have e : antiBitPerm i = i - 48 := by
        unfold antiBitPerm
        split_ifs <;> omega
      rw [e]
      exact ⟨by omega, hb⟩
    · -- (s <<< 24) with mask at 30: square 5 <- 1
      have e : antiBitPerm i = i - 24 := by
        unfold antiBitPerm
        split_ifs <;> omega
      rw [e]
      exact ⟨by omega, hb⟩
    · -- (s <<< 24) with mask at 42: square 7 <- 3
      have e : antiBitPerm i = i - 24 := by
        unfold antiBitPerm
        split_ifs <;> omega
      rw [e]
      exact ⟨by omega, hb⟩
    · -- s with mask at 12: square 2 fixed
      have e : antiBitPerm i = i := by
        unfold antiBitPerm
        split_ifs <;> omega
      rw [e]
      exact ⟨by omega, hb⟩
    · -- s with mask at 24: square 4 fixed
      have e : antiBitPerm i = i := by
        unfold antiBitPerm
        split_ifs <;> omega
      rw [e]
      exact ⟨by omega, hb⟩
    · -- s with mask at 36: square 6 fixed
      have e : antiBitPerm i = i := by
        unfold antiBitPerm
        split_ifs <;> omega
      rw [e]
      exact ⟨by omega, hb⟩
    · -- (s >>> 24) with mask at 6: square 1 <- 5
      have e : antiBitPerm i = 24 + i := by
        unfold antiBitPerm
        split_ifs <;> omega
      rw [e]
      exact ⟨by omega, hb⟩
    · -- (s >>> 24) with mask at 18: square 3 <- 7
      have e : antiBitPerm i = 24 + i := by
        unfold antiBitPerm
        split_ifs <;> omega
      rw [e]
      exact ⟨by omega, hb⟩
    · -- s >>> 48: square 0 <- 8
      by_cases h6 : i < 6
      · have e : antiBitPerm i = 48 + i := by
          unfold antiBitPerm
          split_ifs <;> omega
        rw [e]
        exact ⟨by omega, hb⟩
      · rw [testBit_high hs (by omega)] at hb
        exact absurd hb (by simp)
  · rintro ⟨h54, hb⟩
    by_cases c1 : i < 6
    · right
      have e : 48 + i = antiBitPerm i := by
        unfold antiBitPerm
        split_ifs <;> omega
      rw [e]
      exact hb
    · by_cases c2 : i < 12
      · left
        right
        left
        have e : antiBitPerm i = i + 24 := by
          unfold antiBitPerm
          split_ifs <;> omega
        rw [e] at hb
        have e2 : 24 + i = i + 24 := by omega
        rw [e2]
        exact ⟨hb, by omega, by omega⟩
      · by_cases c3 : i < 18
        · left
          left
          right
          left
          have e : antiBitPerm i = i := by
            unfold antiBitPerm
            split_ifs <;> omega
          rw [e] at hb
          exact ⟨hb, by omega, by omega⟩
        · by_cases c4 : i < 24
          · left
            right
            right
            have e : antiBitPerm i = i + 24 := by
              unfold antiBitPerm
              split_ifs <;> omega
            rw [e] at hb
            have e2 : 24 + i = i + 24 := by omega
            rw [e2]
            exact ⟨hb, by omega, by omega⟩
          · by_cases c5 : i < 30
            · left
              left
              right
              right
              left
              have e : antiBitPerm i = i := by
                unfold antiBitPerm
                split_ifs <;> omega
              rw [e] at hb
              exact ⟨hb, by omega, by omega⟩
            · by_cases c6 : i < 36
              · left
                left
                left
                right
                left
                have e : antiBitPerm i = i - 24 := by
                  unfold antiBitPerm
                  split_ifs <;> omega
                rw [e] at hb
                exact ⟨⟨by omega, hb⟩, by omega, by omega⟩
              · by_cases c7 : i < 42
                · left
                  left
                  right
                  right
                  right
                  have e : antiBitPerm i = i := by
                    unfold antiBitPerm
                    split_ifs <;> omega
                  rw [e] at hb
                  exact ⟨hb, by omega, by omega⟩
                · by_cases c8 : i < 48
                  · left
                    left
                    left
                    right
                    right
                    have e : antiBitPerm i = i - 24 := by
                      unfold antiBitPerm
                      split_ifs <;> omega
                    rw [e] at hb
                    exact ⟨⟨by omega, hb⟩, by omega, by omega⟩
                  · left
                    left
                    left
                    left
                    have e : antiBitPerm i = i - 48 := by
                      unfold antiBitPerm
                      split_ifs <;> omega
                    rw [e] at hb
                    exact ⟨⟨by omega, hb⟩, by omega, by omega⟩

theorem swap_lt (s : Nat) : swap s < 2 ^ 54 := by
  apply Nat.lt_pow_two_of_testBit
  intro i hi
  rw [testBit_swap]
  have : ¬ i < 54 := by omega
  simp [this]

/-- Claim C8 theorem: swap is an involution on 54-bit states. -/
theorem swap_swap {s : Nat} (hs : s < 2 ^ 54) : swap (swap s) = s := by
  apply Nat.eq_of_testBit_eq
  intro i
  rw [testBit_swap, testBit_swap]
  by_cases h : i < 54
  · have hperm : swapBitPerm (swapBitPerm i) = i := by
      unfold swapBitPerm
      omega
    have hp54 : swapBitPerm i < 54 := by
      unfold swapBitPerm
      omega
    simp [h, hp54, hperm]
  · have hbit : s.testBit i = false := by
      apply Nat.testBit_lt_two_pow
      calc s < 2 ^ 54 := hs
        _ ≤ 2 ^ i := Nat.pow_le_pow_right (by norm_num) (by omega)
    simp [h, hbit]

/-! ## Bit-permutation operator framework

Each symmetry operation acts on 54-bit states by permuting bit positions.
Composites of such operators are handled uniformly: two composites agree on
54-bit states as soon as their index maps agree below 54, which is a finite
check. -/

/-- An operator op on 54-bit states realizes the bit-index permutation p. -/
structure BitPermOp (op : Nat → Nat) (p : Nat → Nat) : Prop where
  bits : ∀ s, s < 2 ^ 54 → ∀ i, (op s).testBit i = (decide (i < 54) && s.testBit (p i))
  maps : ∀ i, i < 54 → p i < 54

theorem BitPermOp.lt {op p} (h : BitPermOp op p) {s : Nat} (hs : s < 2 ^ 54) :
    op s < 2 ^ 54 := by
  apply Nat.lt_pow_two_of_testBit
  intro i hi
  rw [h.bits s hs]
  have : ¬ i < 54 := by omega
  simp [this]

theorem BitPermOp.comp {op1 p1 op2 p2} (h1 : BitPermOp op1 p1) (h2 : BitPermOp op2 p2) :
    BitPermOp (fun s => op1 (op2 s)) (fun i => p2 (p1 i)) := by
  constructor
  · intro s hs i
    rw [h1.bits _ (h2.lt hs), h2.bits _ hs]
    by_cases h : i < 54
    · have := h1.maps i h
      simp [h, this]
    · simp [h]
  · intro i hi
    exact h2.maps _ (h1.maps _ hi)

/-- Two bit-permutation operators agree on 54-bit states as soon as their
index maps agree below 54. -/
theorem BitPermOp.ext_eq {op1 p1 op2 p2} (h1 : BitPermOp op1 p1) (h2 : BitPermOp op2 p2)
    (hp : ∀ i, i < 54 → p1 i = p2 i) {s : Nat} (hs : s < 2 ^ 54) : op1 s = op2 s := by
  apply Nat.eq_of_testBit_eq
  intro i
  rw [h1.bits s hs, h2.bits s hs]
  by_cases h : i < 54
  · rw [hp i h]
  · simp [h]

theorem bp_id : BitPermOp (fun s => s) (fun i => i) := by
  constructor
  · intro s hs i
    by_cases h : i < 54
    · simp [h]
    · have hb := testBit_high hs (show 54 ≤ i by omega)
      simp [h, hb]
  · intro i hi
    exact hi

theorem bp_flipud : BitPermOp flipud flipBitPerm := by
  constructor
  · intro s hs i
    exact testBit_flipud hs i
  · decide

theorem bp_antitranspose : BitPermOp antitranspose antiBitPerm := by
  constructor
  · intro s hs i
    exact testBit_antitranspose hs i
  · decide

theorem bp_swap : BitPermOp swap swapBitPerm := by
  constructor
  · intro s _ i
    exact testBit_swap s i
  · intro i hi
    unfold swapBitPerm
    omega

theorem flipud_lt {s : Nat} (hs : s < 2 ^ 54) : flipud s < 2 ^ 54 :=
  bp_flipud.lt hs

theorem antitranspose_lt {s : Nat} (hs : s < 2 ^ 54) : antitranspose s < 2 ^ 54 :=
  bp_antitranspose.lt hs

/-! ## Dihedral group identities -/

theorem flipud_flipud {s : Nat} (hs : s < 2 ^ 54) : flipud (flipud s) = s :=
  BitPermOp.ext_eq (bp_flipud.comp bp_flipud) bp_id (by decide) hs

theorem antitranspose_antitranspose {s : Nat} (hs : s < 2 ^ 54) :
    antitranspose (antitranspose s) = s :=
  BitPermOp.ext_eq (bp_antitranspose.comp bp_antitranspose) bp_id (by decide) hs

/-- The eight elements of the dihedral group of the square, as generated by
flipud and antitranspose in the alternation order used by canonical. -/
def dihedralGroup : List (Nat → Nat) :=
  [fun s => s,
   fun s => flipud s,
   fun s => antitranspose (flipud s),
   fun s => flipud (antitranspose (flipud s)),
   fun s => antitranspose (flipud (antitranspose (flipud s))),
   fun s => flipud (antitranspose (flipud (antitranspose (flipud s)))),
   fun s => antitranspose (flipud (antitranspose (flipud (antitranspose (flipud s))))),
   fun s => flipud (antitranspose (flipud (antitranspose (flipud (antitranspose (flipud s))))))]

/-- BitPermOp instances for the eight dihedral words, with their index maps. -/
theorem bp_w2 : BitPermOp (fun s => antitranspose (flipud s))
    (fun i => flipBitPerm (antiBitPerm i)) :=
  bp_antitranspose.comp bp_flipud

theorem bp_w3 : BitPermOp (fun s => flipud (antitranspose (flipud s)))
    (fun i => flipBitPerm (antiBitPerm (flipBitPerm i))) :=
  bp_flipud.comp bp_w2

theorem bp_w4 : BitPermOp (fun s => antitranspose (flipud (antitranspose (flipud s))))
    (fun i => flipBitPerm (antiBitPerm (flipBitPerm (antiBitPerm i)))) :=
  bp_antitranspose.comp bp_w3

theorem bp_w5 : BitPermOp (fun s => flipud (antitranspose (flipud (antitranspose (flipud s)))))
    (fun i => flipBitPerm (antiBitPerm (flipBitPerm (antiBitPerm (flipBitPerm i))))) :=
  bp_flipud.comp bp_w4

theorem bp_w6 : BitPermOp
    (fun s => antitranspose (flipud (antitranspose (flipud (antitranspose (flipud s))))))
    (fun i => flipBitPerm (antiBitPerm (flipBitPerm (antiBitPerm (flipBitPerm (antiBitPerm i)))))) :=
  bp_antitranspose.comp bp_w5

theorem bp_w7 : BitPermOp
    (fun s => flipud (antitranspose (flipud (antitranspose (flipud (antitranspose (flipud s)))))))
    (fun i => flipBitPerm (antiBitPerm (flipBitPerm (antiBitPerm (flipBitPerm
      (antiBitPerm (flipBitPerm i))))))) :=
  bp_flipud.comp bp_w6

/-! ## The orbit of a state under the dihedral group -/

/-- The eight candidates examined by canonical, in the order they are
produced. -/
def orbitList (s : Nat) : List Nat :=
  [s,
   flipud s,
   antitranspose (flipud s),
   flipud (antitranspose (flipud s)),
   antitranspose (flipud (antitranspose (flipud s))),
   flipud (antitranspose (flipud (antitranspose (flipud s)))),
   antitranspose (flipud (antitranspose (flipud (antitranspose (flipud s))))),
   flipud (antitranspose (flipud (antitranspose (flipud (antitranspose (flipud s))))))]

theorem canonical_le {s x : Nat} (hx : x ∈ orbitList s) : canonical s ≤ x := by
  simp only [orbitList, List.mem_cons, List.not_mem_nil, or_false] at hx
  simp only [canonical]
  omega

theorem canonical_mem (s : Nat) : canonical s ∈ orbitList s := by
  simp only [orbitList, List.mem_cons, List.not_mem_nil, or_false]
  simp only [canonical]
  omega

/-- Composite instances for the orbit words of flipud s (the extra flipud
innermost). -/
theorem bp_u1 : BitPermOp (fun s => flipud (flipud s))
    (fun i => flipBitPerm (flipBitPerm i)) :=
  bp_flipud.comp bp_flipud

theorem bp_u2 : BitPermOp (fun s => antitranspose (flipud (flipud s)))
    (fun i => flipBitPerm (flipBitPerm (antiBitPerm i))) :=
  bp_antitranspose.comp bp_u1

theorem bp_u3 : BitPermOp (fun s => flipud (antitranspose (flipud (flipud s))))
    (fun i => flipBitPerm (flipBitPerm (antiBitPerm (flipBitPerm i)))) :=
  bp_flipud.comp bp_u2

theorem bp_u4 : BitPermOp (fun s => antitranspose (flipud (antitranspose (flipud (flipud s)))))
    (fun i => flipBitPerm (flipBitPerm (antiBitPerm (flipBitPerm (antiBitPerm i))))) :=
  bp_antitranspose.comp bp_u3

theorem bp_u5 : BitPermOp
    (fun s => flipud (antitranspose (flipud (antitranspose (flipud (flipud s))))))
    (fun i => flipBitPerm (flipBitPerm (antiBitPerm (flipBitPerm (antiBitPerm
      (flipBitPerm i)))))) :=
  bp_flipud.comp bp_u4

theorem bp_u6 : BitPermOp
    (fun s => antitranspose (flipud (antitranspose (flipud (antitranspose (flipud (flipud s)))))))
    (fun i => flipBitPerm (flipBitPerm (antiBitPerm (flipBitPerm (antiBitPerm
      (flipBitPerm (antiBitPerm i))))))) :=
  bp_antitranspose.comp bp_u5

theorem bp_u7 : BitPermOp
    (fun s => flipud (antitranspose (flipud (antitranspose (flipud (antitranspose
      (flipud (flipud s))))))))
    (fun i => flipBitPerm (flipBitPerm (antiBitPerm (flipBitPerm (antiBitPerm
      (flipBitPerm (antiBitPerm (flipBitPerm i)))))))) :=
  bp_flipud.comp bp_u6

/-- Composite instances for the orbit words of antitranspose s (antitranspose
innermost). -/
theorem bp_v1 : BitPermOp (fun s => flipud (antitranspose s))
    (fun i => antiBitPerm (flipBitPerm i)) :=
  bp_flipud.comp bp_antitranspose

theorem bp_v2 : BitPermOp (fun s => antitranspose (flipud (antitranspose s)))
    (fun i => antiBitPerm (flipBitPerm (antiBitPerm i))) :=
  bp_antitranspose.comp bp_v1

theorem bp_v3 : BitPermOp (fun s => flipud (antitranspose (flipud (antitranspose s))))
    (fun i => antiBitPerm (flipBitPerm (antiBitPerm (flipBitPerm i)))) :=
  bp_flipud.comp bp_v2

theorem bp_v4 : BitPermOp
    (fun s => antitranspose (flipud (antitranspose (flipud (antitranspose s)))))
    (fun i => antiBitPerm (flipBitPerm (antiBitPerm (flipBitPerm (antiBitPerm i))))) :=
  bp_antitranspose.comp bp_v3

theorem bp_v5 : BitPermOp
    (fun s => flipud (antitranspose (flipud (antitranspose (flipud (antitranspose s))))))
    (fun i => antiBitPerm (flipBitPerm (antiBitPerm (flipBitPerm (antiBitPerm
      (flipBitPerm i)))))) :=
  bp_flipud.comp bp_v4

theorem bp_v6 : BitPermOp
    (fun s => antitranspose (flipud (antitranspose (flipud (antitranspose (flipud
      (antitranspose s)))))))
    (fun i => antiBitPerm (flipBitPerm (antiBitPerm (flipBitPerm (antiBitPerm
      (flipBitPerm (antiBitPerm i))))))) :=
  bp_antitranspose.comp bp_v5

theorem bp_v7 : BitPermOp
    (fun s => flipud (antitranspose (flipud (antitranspose (flipud (antitranspose
      (flipud (antitranspose s))))))))
    (fun i => antiBitPerm (flipBitPerm (antiBitPerm (flipBitPerm (antiBitPerm
      (flipBitPerm (antiBitPerm (flipBitPerm i)))))))) :=
  bp_flipud.comp bp_v6

/-- The orbit of flipud s consists of the orbit members of s, permuted. -/
theorem orbitList_flipud {s : Nat} (hs : s < 2 ^ 54) :
    orbitList (flipud s) =
      [flipud s, s,
       flipud (antitranspose (flipud (antitranspose (flipud (antitranspose (flipud s)))))),
       antitranspose (flipud (antitranspose (flipud (antitranspose (flipud s))))),
       flipud (antitranspose (flipud (antitranspose (flipud s)))),
       antitranspose (flipud (antitranspose (flipud s))),
       flipud (antitranspose (flipud s)),
       antitranspose (flipud s)] := by
  have h1 : flipud (flipud s) = s := BitPermOp.ext_eq bp_u1 bp_id (by decide) hs
  have hv5 : flipud (antitranspose (flipud (antitranspose (flipud (antitranspose s))))) =
      antitranspose (flipud s) :=
    BitPermOp.ext_eq bp_v5 bp_w2 (by decide) hs
  have hv4 : antitranspose (flipud (antitranspose (flipud (antitranspose s)))) =
      flipud (antitranspose (flipud s)) :=
    BitPermOp.ext_eq bp_v4 bp_w3 (by decide) hs
  have hv3 : flipud (antitranspose (flipud (antitranspose s))) =
      antitranspose (flipud (antitranspose (flipud s))) :=
    BitPermOp.ext_eq bp_v3 bp_w4 (by decide) hs
  have hv2 : antitranspose (flipud (antitranspose s)) =
      flipud (antitranspose (flipud (antitranspose (flipud s)))) :=
    BitPermOp.ext_eq bp_v2 bp_w5 (by decide) hs
  have hv1 : flipud (antitranspose s) =
      antitranspose (flipud (antitranspose (flipud (antitranspose (flipud s))))) :=
    BitPermOp.ext_eq bp_v1 bp_w6 (by decide) hs
  have hv0 : antitranspose s =
      flipud (antitranspose (flipud (antitranspose (flipud (antitranspose (flipud s)))))) :=
    BitPermOp.ext_eq bp_antitranspose bp_w7 (by decide) hs
  unfold orbitList
  rw [h1, hv5, hv4, hv3, hv2, hv1, hv0]

/-- The orbit of antitranspose s consists of the orbit members of s,
permuted. -/
theorem orbitList_antitranspose {s : Nat} (hs : s < 2 ^ 54) :
    orbitList (antitranspose s) =
      [flipud (antitranspose (flipud (antitranspose (flipud (antitranspose (flipud s)))))),
       antitranspose (flipud (antitranspose (flipud (antitranspose (flipud s))))),
       flipud (antitranspose (flipud (antitranspose (flipud s)))),
       antitranspose (flipud (antitranspose (flipud s))),
       flipud (antitranspose (flipud s)),
       antitranspose (flipud s),
       flipud s, s] := by
  have hv7 : flipud (antitranspose (flipud (antitranspose (flipud (antitranspose
      (flipud (antitranspose s))))))) = s :=
    BitPermOp.ext_eq bp_v7 bp_id (by decide) hs
  have hv6 : antitranspose (flipud (antitranspose (flipud (antitranspose (flipud
      (antitranspose s)))))) = flipud s :=
    BitPermOp.ext_eq bp_v6 bp_flipud (by decide) hs
  have hv5 : flipud (antitranspose (flipud (antitranspose (flipud (antitranspose s))))) =
      antitranspose (flipud s) :=
    BitPermOp.ext_eq bp_v5 bp_w2 (by decide) hs
  have hv4 : antitranspose (flipud (antitranspose (flipud (antitranspose s)))) =
      flipud (antitranspose (flipud s)) :=
    BitPermOp.ext_eq bp_v4 bp_w3 (by decide) hs
  have hv3 : flipud (antitranspose (flipud (antitranspose s))) =
      antitranspose (flipud (antitranspose (flipud s))) :=
    BitPermOp.ext_eq bp_v3 bp_w4 (by decide) hs
  have hv2 : antitranspose (flipud (antitranspose s)) =
      flipud (antitranspose (flipud (antitranspose (flipud s)))) :=
    BitPermOp.ext_eq bp_v2 bp_w5 (by decide) hs
  have hv1 : flipud (antitranspose s) =
      antitranspose (flipud (antitranspose (flipud (antitranspose (flipud s))))) :=
    BitPermOp.ext_eq bp_v1 bp_w6 (by decide) hs
  have hv0 : antitranspose s =
      flipud (antitranspose (flipud (antitranspose (flipud (antitranspose (flipud s)))))) :=
    BitPermOp.ext_eq bp_antitranspose bp_w7 (by decide) hs
  unfold orbitList
  rw [hv7, hv6, hv5, hv4, hv3, hv2, hv1, hv0]

/-- canonical is invariant under the generator flipud. -/
theorem canonical_flipud {s : Nat} (hs : s < 2 ^ 54) :
    canonical (flipud s) = canonical s := by
  apply Nat.le_antisymm
  · have hm := canonical_mem s
    simp only [orbitList, List.mem_cons, List.not_mem_nil, or_false] at hm
    rcases hm with h | h | h | h | h | h | h | h <;> rw [h] <;> apply canonical_le <;>
      rw [orbitList_flipud hs] <;> simp
  · have hm := canonical_mem (flipud s)
    rw [orbitList_flipud hs] at hm
    simp only [List.mem_cons, List.not_mem_nil, or_false] at hm
    rcases hm with h | h | h | h | h | h | h | h <;> rw [h] <;> apply canonical_le <;>
      simp [orbitList]

/-- canonical is invariant under the generator antitranspose. -/
theorem canonical_antitranspose {s : Nat} (hs : s < 2 ^ 54) :
    canonical (antitranspose s) = canonical s := by
  apply Nat.le_antisymm
  · have hm := canonical_mem s
    simp only [orbitList, List.mem_cons, List.not_mem_nil, or_false] at hm
    rcases hm with h | h | h | h | h | h | h | h <;> rw [h] <;> apply canonical_le <;>
      rw [orbitList_antitranspose hs] <;> simp
  · have hm := canonical_mem (antitranspose s)
    rw [orbitList_antitranspose hs] at hm
    simp only [List.mem_cons, List.not_mem_nil, or_false] at hm
    rcases hm with h | h | h | h | h | h | h | h <;> rw [h] <;> apply canonical_le <;>
      simp [orbitList]

/-- canonical is invariant under every element of the dihedral group. -/
theorem canonical_dihedral {s : Nat} (hs : s < 2 ^ 54) :
    ∀ g ∈ dihedralGroup, canonical (g s) = canonical s := by
  intro g hg
  have h1 : flipud s < 2 ^ 54 := flipud_lt hs
  have h2 : antitranspose (flipud s) < 2 ^ 54 := antitranspose_lt h1
  have h3 : flipud (antitranspose (flipud s)) < 2 ^ 54 := flipud_lt h2
  have h4 : antitranspose (flipud (antitranspose (flipud s))) < 2 ^ 54 := antitranspose_lt h3
  have h5 : flipud (antitranspose (flipud (antitranspose (flipud s)))) < 2 ^ 54 := flipud_lt h4
  have h6 : antitranspose (flipud (antitranspose (flipud (antitranspose (flipud s))))) < 2 ^ 54 :=
    antitranspose_lt h5
  simp only [dihedralGroup, List.mem_cons, List.not_mem_nil, or_false] at hg
  rcases hg with rfl | rfl | rfl | rfl | rfl | rfl | rfl | rfl
  · rfl
  · exact canonical_flipud hs
  · show canonical (antitranspose (flipud s)) = canonical s
    rw [canonical_antitranspose h1, canonical_flipud hs]
  · show canonical (flipud (antitranspose (flipud s))) = canonical s
    rw [canonical_flipud h2, canonical_antitranspose h1, canonical_flipud hs]
  · show canonical (antitranspose (flipud (antitranspose (flipud s)))) = canonical s
    rw [canonical_antitranspose h3, canonical_flipud h2, canonical_antitranspose h1,
      canonical_flipud hs]
  · show canonical (flipud (antitranspose (flipud (antitranspose (flipud s))))) = canonical s
    rw [canonical_flipud h4, canonical_antitranspose h3, canonical_flipud h2,
      canonical_antitranspose h1, canonical_flipud hs]
  · show canonical (antitranspose (flipud (antitranspose (flipud (antitranspose (flipud s)))))) =
      canonical s
    rw [canonical_antitranspose h5, canonical_flipud h4, canonical_antitranspose h3,
      canonical_flipud h2, canonical_antitranspose h1, canonical_flipud hs]
  · show canonical (flipud (antitranspose (flipud (antitranspose (flipud
      (antitranspose (flipud s))))))) = canonical s
    rw [canonical_flipud h6, canonical_antitranspose h5, canonical_flipud h4,
      canonical_antitranspose h3, canonical_flipud h2, canonical_antitranspose h1,
      canonical_flipud hs]

/-- canonical is idempotent on 54-bit states. -/
theorem canonical_canonical {s : Nat} (hs : s < 2 ^ 54) :
    canonical (canonical s) = canonical s := by
  have hm := canonical_mem s
  have hd := canonical_dihedral hs
  simp only [orbitList, List.mem_cons, List.not_mem_nil, or_false] at hm
  rcases hm with h | h | h | h | h | h | h | h
  · rw [h]
    exact h
  · conv_lhs => rw [h]
    exact hd (fun s => flipud s) (by simp [dihedralGroup])
  · conv_lhs => rw [h]
    exact hd (fun s => antitranspose (flipud s)) (by simp [dihedralGroup])
  · conv_lhs => rw [h]
    exact hd (fun s => flipud (antitranspose (flipud s))) (by simp [dihedralGroup])
  · conv_lhs => rw [h]
    exact hd (fun s => antitranspose (flipud (antitranspose (flipud s))))
      (by simp [dihedralGroup])
  · conv_lhs => rw [h]
    exact hd (fun s => flipud (antitranspose (flipud (antitranspose (flipud s)))))
      (by simp [dihedralGroup])
  · conv_lhs => rw [h]
    exact hd
      (fun s => antitranspose (flipud (antitranspose (flipud (antitranspose (flipud s))))))
      (by simp [dihedralGroup])
  · conv_lhs => rw [h]
    exact hd
      (fun s => flipud (antitranspose (flipud (antitranspose (flipud (antitranspose
        (flipud s)))))))
      (by simp [dihedralGroup])

/-- Claim C7: canonical is idempotent, and canonical agrees on every image of
a 54-bit state under the 8-element dihedral group generated by flipud and
antitranspose. -/
theorem claim_C7_canonical_dihedral {s : Nat} (hs : s < 2 ^ 54) :
    canonical (canonical s) = canonical s ∧
      ∀ g ∈ dihedralGroup, canonical (g s) = canonical s :=
  ⟨canonical_canonical hs, canonical_dihedral hs⟩

/-- Witness for claim C7 at the concrete state 1 (a small piece of the side
to move on square 0). -/
theorem claim_C7_witness :
    (1 : Nat) < 2 ^ 54 ∧
      (canonical (canonical 1) = canonical 1 ∧
        ∀ g ∈ dihedralGroup, canonical (g 1) = canonical 1) :=
  ⟨by norm_num, claim_C7_canonical_dihedral (by norm_num)⟩


/-! ## Terminal detection (Game::get_terminal_value) -/

/-- Piece stack of square q: the 6-bit field (s >> (6 * q)) & 0x3f. -/
def sqPieces (s : Nat) (q : Nat) : Nat := (s >>> (6 * q)) &&& 0x3f

/-- Fuel-based unrolling of the scan loop
for (; pieces > 0x3; pieces >>= 2); the fuel only serves structural
termination and is irrelevant as soon as it bounds the argument. -/
def topPieceGo : Nat → Nat → Nat
  | 0, pieces => pieces
  | fuel + 1, pieces => if pieces > 0x3 then topPieceGo fuel (pieces >>> 2) else pieces

/-- The scan loop for (; pieces > 0x3; pieces >>= 2); it leaves the topmost
2-bit field of the stack (0 when the stack is empty). -/
def topPiece (pieces : Nat) : Nat := topPieceGo pieces pieces

theorem topPieceGo_fuel {f1 f2 p : Nat} (h1 : p ≤ f1) (h2 : p ≤ f2) :
    topPieceGo f1 p = topPieceGo f2 p := by
  induction f1 generalizing p f2 with
  | zero =>
    have : p = 0 := by omega
    subst this
    cases f2 <;> simp [topPieceGo]
  | succ f1 ih =>
    cases f2 with
    | zero =>
      have : p = 0 := by omega
      subst this
      simp [topPieceGo]
    | succ g =>
      simp only [topPieceGo]
      by_cases h : p > 0x3
      · rw [if_pos h, if_pos h]
        have hp : p >>> 2 = p / 4 := by
          rw [Nat.shiftRight_eq_div_pow]
        exact ih (by omega) (by omega)
      · rw [if_neg h, if_neg h]

/-- The loop unfolding equation for topPiece. -/
theorem topPiece_eq (p : Nat) : topPiece p = if p > 0x3 then topPiece (p >>> 2) else p := by
  unfold topPiece
  by_cases h : p > 0x3
  · rw [if_pos h]
    obtain ⟨q, rfl⟩ : ∃ q, p = q + 1 := ⟨p - 1, by omega⟩
    simp only [topPieceGo]
    rw [if_pos h]
    have hp : (q + 1) >>> 2 = (q + 1) / 4 := by
      rw [Nat.shiftRight_eq_div_pow]
    exact topPieceGo_fuel (by omega) (by omega)
  · rw [if_neg h]
    cases p with
    | zero => simp [topPieceGo]
    | succ q =>
      simp only [topPieceGo]
      rw [if_neg (by omega)]

/-- The eight lines: rows, columns, diagonals. -/
def lines : List (Nat × Nat × Nat) :=
  [(0, 1, 2), (3, 4, 5), (6, 7, 8), (0, 3, 6), (1, 4, 7), (2, 5, 8), (0, 4, 8), (2, 4, 6)]

/-- The inner loop of get_terminal_value for one line, with break semantics:
zero if some top is absent or two tops differ, else the common top value. -/
def line_winner (s : Nat) (l : Nat × Nat × Nat) : Nat :=
  let t0 := topPiece (sqPieces s l.1)
  if t0 = 0 then 0
  else
    let t1 := topPiece (sqPieces s l.2.1)
    if t1 = 0 then 0
    else if t1 ≠ t0 then 0
    else
      let t2 := topPiece (sqPieces s l.2.2)
      if t2 = 0 then 0 else if t2 ≠ t0 then 0 else t0

/-- The outer loop over lines: winner 1 returns value 1 immediately; winner 2
records value -1 and keeps scanning. -/
def gtvAux (s : Nat) : List (Nat × Nat × Nat) → Int → Int
  | [], value => value
  | l :: ls, value =>
    if line_winner s l = 1 then 1
    else gtvAux s ls (if line_winner s l = 2 then -1 else value)

/-- Return value for current player if game over, otherwise 0
(Game::get_terminal_value). -/
def get_terminal_value (s : Nat) : Int := gtvAux s lines 0

/-- The side to move owns the top piece of all three squares of some line. -/
def selfLine (s : Nat) : Prop :=
  ∃ l ∈ lines, topPiece (sqPieces s l.1) = 1 ∧ topPiece (sqPieces s l.2.1) = 1 ∧
    topPiece (sqPieces s l.2.2) = 1

/-- The opponent owns the top piece of all three squares of some line. -/
def oppLine (s : Nat) : Prop :=
  ∃ l ∈ lines, topPiece (sqPieces s l.1) = 2 ∧ topPiece (sqPieces s l.2.1) = 2 ∧
    topPiece (sqPieces s l.2.2) = 2

theorem line_winner_one_iff {s : Nat} {l : Nat × Nat × Nat} :
    line_winner s l = 1 ↔ (topPiece (sqPieces s l.1) = 1 ∧ topPiece (sqPieces s l.2.1) = 1 ∧
      topPiece (sqPieces s l.2.2) = 1) := by
  simp only [line_winner]
  split_ifs <;> simp_all <;> omega

theorem line_winner_two_iff {s : Nat} {l : Nat × Nat × Nat} :
    line_winner s l = 2 ↔ (topPiece (sqPieces s l.1) = 2 ∧ topPiece (sqPieces s l.2.1) = 2 ∧
      topPiece (sqPieces s l.2.2) = 2) := by
  simp only [line_winner]
  split_ifs <;> simp_all <;> omega

theorem gtvAux_eq_one_iff (s : Nat) (ls : List (Nat × Nat × Nat)) (v : Int)
    (hv : v = 0 ∨ v = -1) :
    gtvAux s ls v = 1 ↔ ∃ l ∈ ls, line_winner s l = 1 := by
  induction ls generalizing v with
  | nil =>
    rcases hv with rfl | rfl <;> simp [gtvAux]
  | cons l ls ih =>
    by_cases h1 : line_winner s l = 1
    · simp only [gtvAux, h1, if_pos]
      simp only [true_iff, if_true]
      exact ⟨l, by simp, h1⟩
    · rw [show gtvAux s (l :: ls) v =
          gtvAux s ls (if line_winner s l = 2 then -1 else v) by simp [gtvAux, h1]]
      rw [ih _ (by split_ifs <;> simp [hv])]
      constructor
      · rintro ⟨l', hl', h⟩
        exact ⟨l', by simp [hl'], h⟩
      · rintro ⟨l', hl', h⟩
        rcases List.mem_cons.mp hl' with rfl | hl''
        · exact absurd h h1
        · exact ⟨l', hl'', h⟩

theorem gtvAux_eq_neg_one_iff (s : Nat) (ls : List (Nat × Nat × Nat)) (v : Int)
    (hv : v = 0 ∨ v = -1) :
    gtvAux s ls v = -1 ↔ ((¬ ∃ l ∈ ls, line_winner s l = 1) ∧
      (v = -1 ∨ ∃ l ∈ ls, line_winner s l = 2)) := by
  induction ls generalizing v with
  | nil =>
    rcases hv with rfl | rfl <;> simp [gtvAux]
  | cons l ls ih =>
    by_cases h1 : line_winner s l = 1
    · simp only [gtvAux, h1, if_pos, if_true]
      constructor
      · intro h
        omega
      · rintro ⟨hno, -⟩
        exact absurd ⟨l, by simp, h1⟩ hno
    · rw [show gtvAux s (l :: ls) v =
          gtvAux s ls (if line_winner s l = 2 then -1 else v) by simp [gtvAux, h1]]
      rw [ih _ (by split_ifs <;> simp [hv])]
      constructor
      · rintro ⟨hno, hv'⟩
        refine ⟨?_, ?_⟩
        · rintro ⟨l', hl', h⟩
          rcases List.mem_cons.mp hl' with rfl | hl''
          · exact absurd h h1
          · exact hno ⟨l', hl'', h⟩
        · split_ifs at hv' with h2
          · right
            exact ⟨l, by simp, h2⟩
          · rcases hv' with hv' | ⟨l', hl', h⟩
            · left
              exact hv'
            · right
              exact ⟨l', by simp [hl'], h⟩
      · rintro ⟨hno, hv'⟩
        refine ⟨?_, ?_⟩
        · rintro ⟨l', hl', h⟩
          exact hno ⟨l', by simp [hl'], h⟩
        · split_ifs with h2
          · left
            rfl
          · rcases hv' with hv' | ⟨l', hl', h⟩
            · left
              exact hv'
            · rcases List.mem_cons.mp hl' with rfl | hl''
              · exact absurd h h2
              · right
                exact ⟨l', hl'', h⟩

theorem gtvAux_range (s : Nat) (ls : List (Nat × Nat × Nat)) (v : Int)
    (hv : v = 0 ∨ v = -1) :
    gtvAux s ls v = 1 ∨ gtvAux s ls v = -1 ∨ gtvAux s ls v = 0 := by
  induction ls generalizing v with
  | nil =>
    rcases hv with rfl | rfl <;> simp [gtvAux]
  | cons l ls ih =>
    by_cases h1 : line_winner s l = 1
    · simp [gtvAux, h1]
    · rw [show gtvAux s (l :: ls) v =
          gtvAux s ls (if line_winner s l = 2 then -1 else v) by simp [gtvAux, h1]]
      exact ih _ (by split_ifs <;> simp [hv])

/-- Full characterization of get_terminal_value. -/
theorem gtv_spec (s : Nat) :
    (get_terminal_value s = 1 ∨ get_terminal_value s = -1 ∨ get_terminal_value s = 0) ∧
    (get_terminal_value s = 1 ↔ selfLine s) ∧
    (get_terminal_value s = -1 ↔ (¬ selfLine s ∧ oppLine s)) ∧
    (get_terminal_value s = 0 ↔ (¬ selfLine s ∧ ¬ oppLine s)) := by
  have h1 : get_terminal_value s = 1 ↔ selfLine s := by
    unfold get_terminal_value selfLine
    rw [gtvAux_eq_one_iff s lines 0 (by left; rfl)]
    constructor
    · rintro ⟨l, hl, h⟩
      exact ⟨l, hl, line_winner_one_iff.mp h⟩
    · rintro ⟨l, hl, h⟩
      exact ⟨l, hl, line_winner_one_iff.mpr h⟩
  have h2 : get_terminal_value s = -1 ↔ (¬ selfLine s ∧ oppLine s) := by
    unfold get_terminal_value
    rw [gtvAux_eq_neg_one_iff s lines 0 (by left; rfl)]
    unfold selfLine oppLine
    constructor
    · rintro ⟨hno, hv⟩
      refine ⟨?_, ?_⟩
      · rintro ⟨l, hl, h⟩
        exact hno ⟨l, hl, line_winner_one_iff.mpr h⟩
      · rcases hv with hv | ⟨l, hl, h⟩
        · exact absurd hv (by norm_num)
        · exact ⟨l, hl, line_winner_two_iff.mp h⟩
    · rintro ⟨hno, l, hl, h⟩
      refine ⟨?_, Or.inr ⟨l, hl, line_winner_two_iff.mpr h⟩⟩
      rintro ⟨l', hl', h'⟩
      exact hno ⟨l', hl', line_winner_one_iff.mp h'⟩
  have h3 := gtvAux_range s lines 0 (by left; rfl)
  refine ⟨h3, h1, h2, ?_⟩
  constructor
  · intro h0
    have hn1 : ¬ get_terminal_value s = 1 := by rw [h0]; norm_num
    have hn2 : ¬ get_terminal_value s = -1 := by rw [h0]; norm_num
    rw [h1] at hn1
    rw [h2] at hn2
    refine ⟨hn1, ?_⟩
    intro hopp
    exact hn2 ⟨hn1, hopp⟩
  · rintro ⟨hs, ho⟩
    rcases h3 with h | h | h
    · exact absurd (h1.mp h) hs
    · exact absurd (h2.mp h).2 ho
    · exact h


/-- Claim C3: get_terminal_value always lies in {-1, 0, +1}; it equals 1
exactly when the side to move owns the top piece of all three squares of some
line (regardless of any opponent line, self is checked with priority); it
equals -1 exactly when only the opponent has such a line; and it equals 0
exactly when neither side has one. -/
theorem claim_C3_terminal_value (s : Nat) :
    (get_terminal_value s = 1 ∨ get_terminal_value s = -1 ∨ get_terminal_value s = 0) ∧
    (get_terminal_value s = 1 ↔ selfLine s) ∧
    (get_terminal_value s = -1 ↔ (¬ selfLine s ∧ oppLine s)) ∧
    (get_terminal_value s = 0 ↔ (¬ selfLine s ∧ ¬ oppLine s)) :=
  gtv_spec s

/-! ## Symmetry action on squares and terminal values -/

/-- Square permutation realized by flipud (swap rows 0 and 2). -/
def sqPermF (q : Nat) : Nat := 3 * (2 - q / 3) + q % 3

/-- Square permutation realized by antitranspose (reflect across the
anti-diagonal). -/
def sqPermA (q : Nat) : Nat := 8 - 3 * (q % 3) - q / 3

/-- A bit-permutation operator that respects square boundaries permutes the
square stacks. -/
theorem sqPieces_bitPermOp {op p} (hop : BitPermOp op p) (rho : Nat → Nat)
    (hrho : ∀ q, q < 9 → ∀ r, r < 6 → p (6 * q + r) = 6 * rho q + r)
    {s : Nat} (hs : s < 2 ^ 54) {q : Nat} (hq : q < 9) :
    sqPieces (op s) q = sqPieces s (rho q) := by
  have h63 : (0x3f : Nat) = 2 ^ 6 - 1 := by norm_num
  unfold sqPieces
  rw [h63]
  apply Nat.eq_of_testBit_eq
  intro r
  simp only [Nat.testBit_and, Nat.testBit_shiftRight, Nat.testBit_two_pow_sub_one]
  by_cases hr : r < 6
  · rw [hop.bits s hs]
    have h54 : 6 * q + r < 54 := by omega
    have e := hrho q hq r hr
    simp [hr, h54, e]
  · simp [hr]

theorem sqPieces_flipud {s : Nat} (hs : s < 2 ^ 54) {q : Nat} (hq : q < 9) :
    sqPieces (flipud s) q = sqPieces s (sqPermF q) :=
  sqPieces_bitPermOp bp_flipud sqPermF (by decide) hs hq

theorem sqPieces_antitranspose {s : Nat} (hs : s < 2 ^ 54) {q : Nat} (hq : q < 9) :
    sqPieces (antitranspose s) q = sqPieces s (sqPermA q) :=
  sqPieces_bitPermOp bp_antitranspose sqPermA (by decide) hs hq

theorem sqPieces_flipud_list {s : Nat} (hs : s < 2 ^ 54) :
    sqPieces (flipud s) 0 = sqPieces s 6 ∧
    sqPieces (flipud s) 1 = sqPieces s 7 ∧
    sqPieces (flipud s) 2 = sqPieces s 8 ∧
    sqPieces (flipud s) 3 = sqPieces s 3 ∧
    sqPieces (flipud s) 4 = sqPieces s 4 ∧
    sqPieces (flipud s) 5 = sqPieces s 5 ∧
    sqPieces (flipud s) 6 = sqPieces s 0 ∧
    sqPieces (flipud s) 7 = sqPieces s 1 ∧
    sqPieces (flipud s) 8 = sqPieces s 2 := by
  refine ⟨?_, ?_, ?_, ?_, ?_, ?_, ?_, ?_, ?_⟩ <;>
    · rw [sqPieces_flipud hs (by norm_num)]
      norm_num [sqPermF]

theorem sqPieces_antitranspose_list {s : Nat} (hs : s < 2 ^ 54) :
    sqPieces (antitranspose s) 0 = sqPieces s 8 ∧
    sqPieces (antitranspose s) 1 = sqPieces s 5 ∧
    sqPieces (antitranspose s) 2 = sqPieces s 2 ∧
    sqPieces (antitranspose s) 3 = sqPieces s 7 ∧
    sqPieces (antitranspose s) 4 = sqPieces s 4 ∧
    sqPieces (antitranspose s) 5 = sqPieces s 1 ∧
    sqPieces (antitranspose s) 6 = sqPieces s 6 ∧
    sqPieces (antitranspose s) 7 = sqPieces s 3 ∧
    sqPieces (antitranspose s) 8 = sqPieces s 0 := by
  refine ⟨?_, ?_, ?_, ?_, ?_, ?_, ?_, ?_, ?_⟩ <;>
    · rw [sqPieces_antitranspose hs (by norm_num)]
      norm_num [sqPermA]

/-- The generic all-tops-equal-t predicate over some line. -/
def lineTopPred (s : Nat) (t : Nat) : Prop :=
  ∃ l ∈ lines, topPiece (sqPieces s l.1) = t ∧ topPiece (sqPieces s l.2.1) = t ∧
    topPiece (sqPieces s l.2.2) = t

theorem lineTopPred_flipud_mp {s : Nat} (hs : s < 2 ^ 54) (t : Nat)
    (h : lineTopPred (flipud s) t) : lineTopPred s t := by
  obtain ⟨e0, e1, e2, e3, e4, e5, e6, e7, e8⟩ := sqPieces_flipud_list hs
  obtain ⟨l, hl, h1, h2, h3⟩ := h
  simp only [lines, List.mem_cons, List.not_mem_nil, or_false] at hl
  rcases hl with rfl | rfl | rfl | rfl | rfl | rfl | rfl | rfl <;> dsimp only at h1 h2 h3
  · rw [e0] at h1; rw [e1] at h2; rw [e2] at h3
    exact ⟨(6, 7, 8), by decide, h1, h2, h3⟩
  · rw [e3] at h1; rw [e4] at h2; rw [e5] at h3
    exact ⟨(3, 4, 5), by decide, h1, h2, h3⟩
  · rw [e6] at h1; rw [e7] at h2; rw [e8] at h3
    exact ⟨(0, 1, 2), by decide, h1, h2, h3⟩
  · rw [e0] at h1; rw [e3] at h2; rw [e6] at h3
    exact ⟨(0, 3, 6), by decide, h3, h2, h1⟩
  · rw [e1] at h1; rw [e4] at h2; rw [e7] at h3
    exact ⟨(1, 4, 7), by decide, h3, h2, h1⟩
  · rw [e2] at h1; rw [e5] at h2; rw [e8] at h3
    exact ⟨(2, 5, 8), by decide, h3, h2, h1⟩
  · rw [e0] at h1; rw [e4] at h2; rw [e8] at h3
    exact ⟨(2, 4, 6), by decide, h3, h2, h1⟩
  · rw [e2] at h1; rw [e4] at h2; rw [e6] at h3
    exact ⟨(0, 4, 8), by decide, h3, h2, h1⟩

theorem lineTopPred_antitranspose_mp {s : Nat} (hs : s < 2 ^ 54) (t : Nat)
    (h : lineTopPred (antitranspose s) t) : lineTopPred s t := by
  obtain ⟨e0, e1, e2, e3, e4, e5, e6, e7, e8⟩ := sqPieces_antitranspose_list hs
  obtain ⟨l, hl, h1, h2, h3⟩ := h
  simp only [lines, List.mem_cons, List.not_mem_nil, or_false] at hl
  rcases hl with rfl | rfl | rfl | rfl | rfl | rfl | rfl | rfl <;> dsimp only at h1 h2 h3
  · rw [e0] at h1; rw [e1] at h2; rw [e2] at h3
    exact ⟨(2, 5, 8), by decide, h3, h2, h1⟩
  · rw [e3] at h1; rw [e4] at h2; rw [e5] at h3
    exact ⟨(1, 4, 7), by decide, h3, h2, h1⟩
  · rw [e6] at h1; rw [e7] at h2; rw [e8] at h3
    exact ⟨(0, 3, 6), by decide, h3, h2, h1⟩
  · rw [e0] at h1; rw [e3] at h2; rw [e6] at h3
    exact ⟨(6, 7, 8), by decide, h3, h2, h1⟩
  · rw [e1] at h1; rw [e4] at h2; rw [e7] at h3
    exact ⟨(3, 4, 5), by decide, h3, h2, h1⟩
  · rw [e2] at h1; rw [e5] at h2; rw [e8] at h3
    exact ⟨(0, 1, 2), by decide, h3, h2, h1⟩
  · rw [e0] at h1; rw [e4] at h2; rw [e8] at h3
    exact ⟨(0, 4, 8), by decide, h3, h2, h1⟩
  · rw [e2] at h1; rw [e4] at h2; rw [e6] at h3
    exact ⟨(2, 4, 6), by decide, h1, h2, h3⟩

theorem lineTopPred_flipud_iff {s : Nat} (hs : s < 2 ^ 54) (t : Nat) :
    lineTopPred (flipud s) t ↔ lineTopPred s t := by
  constructor
  · exact lineTopPred_flipud_mp hs t
  · intro h
    have h2 := lineTopPred_flipud_mp (flipud_lt hs) t
    rw [flipud_flipud hs] at h2
    exact h2 h

theorem lineTopPred_antitranspose_iff {s : Nat} (hs : s < 2 ^ 54) (t : Nat) :
    lineTopPred (antitranspose s) t ↔ lineTopPred s t := by
  constructor
  · exact lineTopPred_antitranspose_mp hs t
  · intro h
    have h2 := lineTopPred_antitranspose_mp (antitranspose_lt hs) t
    rw [antitranspose_antitranspose hs] at h2
    exact h2 h

theorem selfLine_iff_lineTopPred (s : Nat) : selfLine s ↔ lineTopPred s 1 := Iff.rfl

theorem oppLine_iff_lineTopPred (s : Nat) : oppLine s ↔ lineTopPred s 2 := Iff.rfl

/-- get_terminal_value transfers along an operation preserving both line
predicates. -/
theorem gtv_congr {s t : Nat} (h1 : selfLine t ↔ selfLine s) (h2 : oppLine t ↔ oppLine s) :
    get_terminal_value t = get_terminal_value s := by
  have ht := gtv_spec t
  have hg := gtv_spec s
  rcases hg.1 with h | h | h
  · rw [h]
    exact ht.2.1.mpr (h1.mpr (hg.2.1.mp h))
  · rw [h]
    have := hg.2.2.1.mp h
    exact ht.2.2.1.mpr ⟨fun hx => this.1 (h1.mp hx), h2.mpr this.2⟩
  · rw [h]
    have := hg.2.2.2.mp h
    exact ht.2.2.2.mpr ⟨fun hx => this.1 (h1.mp hx), fun hx => this.2 (h2.mp hx)⟩

theorem gtv_flipud {s : Nat} (hs : s < 2 ^ 54) :
    get_terminal_value (flipud s) = get_terminal_value s := by
  apply gtv_congr
  · rw [selfLine_iff_lineTopPred, selfLine_iff_lineTopPred]
    exact lineTopPred_flipud_iff hs 1
  · rw [oppLine_iff_lineTopPred, oppLine_iff_lineTopPred]
    exact lineTopPred_flipud_iff hs 2

theorem gtv_antitranspose {s : Nat} (hs : s < 2 ^ 54) :
    get_terminal_value (antitranspose s) = get_terminal_value s := by
  apply gtv_congr
  · rw [selfLine_iff_lineTopPred, selfLine_iff_lineTopPred]
    exact lineTopPred_antitranspose_iff hs 1
  · rw [oppLine_iff_lineTopPred, oppLine_iff_lineTopPred]
    exact lineTopPred_antitranspose_iff hs 2

/-- Claim C10: get_terminal_value is invariant under the two generating board
symmetries flipud and antitranspose (hence under the whole dihedral group). -/
theorem claim_C10_terminal_symmetry {s : Nat} (hs : s < 2 ^ 54) :
    get_terminal_value (flipud s) = get_terminal_value s ∧
      get_terminal_value (antitranspose s) = get_terminal_value s :=
  ⟨gtv_flipud hs, gtv_antitranspose hs⟩

/-- Witness for claim C10 at the concrete state 1. -/
theorem claim_C10_witness :
    (1 : Nat) < 2 ^ 54 ∧
      (get_terminal_value (flipud 1) = get_terminal_value 1 ∧
        get_terminal_value (antitranspose 1) = get_terminal_value 1) :=
  ⟨by norm_num, claim_C10_terminal_symmetry (by norm_num)⟩


/-! ## Solved-value packing (Game::pack, unpack_value, unpack_moves) -/

/-- Pack win/loss/draw key value into the upper 10 bits of a state word
(Game::pack).  The C++ arithmetic is on uint64_t, so the negated count and
the shift wrap mod 2^64:
  01######## = win for current player in # moves
  10######## = draw with -(#+1) potential winning moves (2's complement)
  11######## = loss in -(#+1) moves (2's complement). -/
def pack (value : Int) (moves : Nat) : Nat :=
  (if value = -1 then 0 else 1 <<< 62) ^^^
    (((if value = 1 then moves % 2 ^ 64 else (2 ^ 64 - (moves + 1) % 2 ^ 64) % 2 ^ 64)
      <<< 54) % 2 ^ 64)

/-- Game::unpack_value: 2 - (s >> 62). -/
def unpack_value (s : Nat) : Int := 2 - ((s >>> 62 : Nat) : Int)

/-- Reinterpret a 64-bit unsigned value as a signed two's-complement int64
(the static_cast<int64_t> of the C++ code). -/
def toSigned64 (x : Nat) : Int := if x < 2 ^ 63 then (x : Int) else (x : Int) - 2 ^ 64

/-- Game::unpack_moves: arithmetic right shift of the upper byte as a signed
64-bit value, mapping a negative count m to -m - 1. -/
def unpack_moves (s : Nat) : Nat :=
  let moves : Int := toSigned64 ((s <<< 2) % 2 ^ 64) >>> (56 : Nat)
  (if moves < 0 then -moves - 1 else moves).toNat

theorem pack_one {k : Nat} (hk : k < 128) : pack 1 k = (256 + k) * 2 ^ 54 := by
  have h0 : pack 1 k = (256 * 2 ^ 54 + 0) ^^^ (k * 2 ^ 54 + 0) := by
    unfold pack
    rw [if_neg (by norm_num), if_pos rfl, Nat.shiftLeft_eq, Nat.shiftLeft_eq]
    have h1 : k % 2 ^ 64 = k := by omega
    rw [h1]
    have h2 : k * 2 ^ 54 % 2 ^ 64 = k * 2 ^ 54 := by omega
    rw [h2]
    norm_num
  rw [h0, xor_split (by norm_num) (by norm_num)]
  have h3 : (256 : Nat) ^^^ k = (2 * 2 ^ 7 + 0) ^^^ (0 * 2 ^ 7 + k) := by norm_num
  rw [h3, xor_split (by norm_num) (by omega)]
  simp only [Nat.xor_zero, Nat.zero_xor]
  have h4 : (2 : Nat) ^^^ 0 = 2 := by decide
  omega

theorem pack_zero {k : Nat} (hk : k < 128) : pack 0 k = (767 - k) * 2 ^ 54 := by
  have h0 : pack 0 k = (256 * 2 ^ 54 + 0) ^^^ ((1023 - k) * 2 ^ 54 + 0) := by
    unfold pack
    rw [if_neg (by norm_num), if_neg (by norm_num), Nat.shiftLeft_eq, Nat.shiftLeft_eq]
    have h1 : (k + 1) % 2 ^ 64 = k + 1 := by omega
    rw [h1]
    have h2 : (2 ^ 64 - (k + 1)) % 2 ^ 64 = 2 ^ 64 - (k + 1) := by omega
    rw [h2]
    have h3 : (2 ^ 64 - (k + 1)) * 2 ^ 54 % 2 ^ 64 = (1023 - k) * 2 ^ 54 := by omega
    rw [h3]
    norm_num
  rw [h0, xor_split (by norm_num) (by norm_num)]
  have h3 : (256 : Nat) ^^^ (1023 - k) = (1 * 2 ^ 8 + 0) ^^^ (3 * 2 ^ 8 + (255 - k)) := by
    have e1 : (256 : Nat) = 1 * 2 ^ 8 + 0 := by norm_num
    have e2 : 1023 - k = 3 * 2 ^ 8 + (255 - k) := by omega
    rw [← e1, ← e2]
  rw [h3, xor_split (by norm_num) (by omega)]
  simp only [Nat.zero_xor]
  have h4 : (1 : Nat) ^^^ 3 = 2 := by decide
  rw [h4]
  omega

theorem pack_neg {k : Nat} (hk : k < 128) : pack (-1) k = (1023 - k) * 2 ^ 54 := by
  unfold pack
  rw [if_pos rfl, if_neg (by norm_num), Nat.shiftLeft_eq]
  have h1 : (k + 1) % 2 ^ 64 = k + 1 := by omega
  rw [h1]
  have h2 : (2 ^ 64 - (k + 1)) % 2 ^ 64 = 2 ^ 64 - (k + 1) := by omega
  rw [h2]
  have h3 : (2 ^ 64 - (k + 1)) * 2 ^ 54 % 2 ^ 64 = (1023 - k) * 2 ^ 54 := by omega
  rw [h3, Nat.zero_xor]

/-- Adjoining the 54-bit board to a packed value is addition. -/
theorem or_pack {F b : Nat} (hb : b < 2 ^ 54) : b ||| F * 2 ^ 54 = F * 2 ^ 54 + b := by
  rw [Nat.or_comm]
  exact (add_eq_or b hb F).symm

theorem unpack_value_split {F b : Nat} (hb : b < 2 ^ 54) (hF : F < 1024) :
    unpack_value (F * 2 ^ 54 + b) = 2 - ((F / 256 : Nat) : Int) := by
  unfold unpack_value
  rw [Nat.shiftRight_eq_div_pow]
  congr 2
  omega

theorem unpack_moves_split {F b : Nat} (hb : b < 2 ^ 54) (hF : F < 1024) :
    unpack_moves (F * 2 ^ 54 + b) =
      if F % 256 < 128 then F % 256 else 255 - F % 256 := by
  simp only [unpack_moves]
  rw [Nat.shiftLeft_eq]
  have hx : (F * 2 ^ 54 + b) * 2 ^ 2 % 2 ^ 64 = F % 256 * 2 ^ 56 + b * 4 := by omega
  rw [hx]
  unfold toSigned64
  by_cases hc : F % 256 < 128
  · rw [if_pos (by omega : F % 256 * 2 ^ 56 + b * 4 < 2 ^ 63)]
    rw [Int.natCast_shiftRight]
    have h1 : (F % 256 * 2 ^ 56 + b * 4) >>> 56 = F % 256 := by
      rw [Nat.shiftRight_eq_div_pow]
      omega
    rw [h1]
    rw [if_neg (by omega : ¬ ((F % 256 : Nat) : Int) < 0)]
    rw [if_pos hc]
    omega
  · rw [if_neg (by omega : ¬ (F % 256 * 2 ^ 56 + b * 4 < 2 ^ 63))]
    rw [Int.shiftRight_eq_div_pow]
    have h2 : (((F % 256 * 2 ^ 56 + b * 4 : Nat) : Int) - 2 ^ 64) / ((2 ^ 56 : Nat) : Int) =
        ((F % 256 : Nat) : Int) - 256 := by
      push_cast
      omega
    rw [h2]
    rw [if_pos (by omega : ((F % 256 : Nat) : Int) - 256 < 0)]
    rw [if_neg hc]
    omega

/-- Claim C6: pack/unpack round-trip.  For every value v in {-1, 0, 1}, every
moves count k below 128, and every 54-bit board word b, unpacking the value
and the count from b ||| pack v k recovers v and k; moreover pack places a
win depth in bits 54..61 as an unsigned count under high bits 01, and a loss
or tentative-draw count as -(k+1) in two's complement under high bits 11
and 10 respectively. -/
theorem claim_C6_pack_roundtrip {v : Int} {k b : Nat}
    (hv : v = -1 ∨ v = 0 ∨ v = 1) (hk : k < 128) (hb : b < 2 ^ 54) :
    unpack_value (b ||| pack v k) = v ∧ unpack_moves (b ||| pack v k) = k ∧
    pack 1 k >>> 62 = 1 ∧ pack 1 k >>> 54 % 256 = k ∧
    pack (-1) k >>> 62 = 3 ∧ pack (-1) k >>> 54 % 256 = 256 - (k + 1) ∧
    pack 0 k >>> 62 = 2 ∧ pack 0 k >>> 54 % 256 = 256 - (k + 1) := by
  have w1 : pack 1 k >>> 62 = 1 := by
    rw [pack_one hk, Nat.shiftRight_eq_div_pow]
    omega
  have w2 : pack 1 k >>> 54 % 256 = k := by
    rw [pack_one hk, Nat.shiftRight_eq_div_pow]
    omega
  have w3 : pack (-1) k >>> 62 = 3 := by
    rw [pack_neg hk, Nat.shiftRight_eq_div_pow]
    omega
  have w4 : pack (-1) k >>> 54 % 256 = 256 - (k + 1) := by
    rw [pack_neg hk, Nat.shiftRight_eq_div_pow]
    omega
  have w5 : pack 0 k >>> 62 = 2 := by
    rw [pack_zero hk, Nat.shiftRight_eq_div_pow]
    omega
  have w6 : pack 0 k >>> 54 % 256 = 256 - (k + 1) := by
    rw [pack_zero hk, Nat.shiftRight_eq_div_pow]
    omega
  refine ⟨?_, ?_, w1, w2, w3, w4, w5, w6⟩ <;> rcases hv with rfl | rfl | rfl
  · rw [pack_neg hk, or_pack hb, unpack_value_split hb (by omega)]
    omega
  · rw [pack_zero hk, or_pack hb, unpack_value_split hb (by omega)]
    omega
  · rw [pack_one hk, or_pack hb, unpack_value_split hb (by omega)]
    omega
  · rw [pack_neg hk, or_pack hb, unpack_moves_split hb (by omega)]
    rw [if_neg (by omega)]
    omega
  · rw [pack_zero hk, or_pack hb, unpack_moves_split hb (by omega)]
    rw [if_neg (by omega)]
    omega
  · rw [pack_one hk, or_pack hb, unpack_moves_split hb (by omega)]
    rw [if_pos (by omega)]
    omega

/-- Witness for claim C6 at v = 0, k = 5, b = 7. -/
theorem claim_C6_witness :
    ((0 : Int) = -1 ∨ (0 : Int) = 0 ∨ (0 : Int) = 1) ∧ (5 : Nat) < 128 ∧ (7 : Nat) < 2 ^ 54 ∧
      (unpack_value (7 ||| pack 0 5) = 0 ∧ unpack_moves (7 ||| pack 0 5) = 5 ∧
        pack 1 5 >>> 62 = 1 ∧ pack 1 5 >>> 54 % 256 = 5 ∧
        pack (-1) 5 >>> 62 = 3 ∧ pack (-1) 5 >>> 54 % 256 = 256 - (5 + 1) ∧
        pack 0 5 >>> 62 = 2 ∧ pack 0 5 >>> 54 % 256 = 256 - (5 + 1)) :=
  ⟨by norm_num, by norm_num, by norm_num,
    claim_C6_pack_roundtrip (by norm_num) (by norm_num) (by norm_num)⟩


/-! ## Hash table probing (Game::hash, Game::lookup) -/

def HASH_EXP : Nat := 29

def HASH_MASK : Nat := (1 <<< HASH_EXP) - 1

/-- SplitMix64 (Game::hash); the two multiplications wrap mod 2^64. -/
def hash (s : Nat) : Nat :=
  let h1 := s ^^^ (s >>> 30)
  let h2 := h1 * 0xbf58476d1ce4e5b9 % 2 ^ 64
  let h3 := h2 ^^^ (h2 >>> 27)
  let h4 := h3 * 0x94d049bb133111eb % 2 ^ 64
  h4 ^^^ (h4 >>> 31)

/-- The probe loop of Game::lookup, with fuel for structural termination:
advance by step, wrap with the mask, stop on an empty slot or a key match.
The C++ function returns a pointer to the slot; the model returns the slot
index, and none models a probe loop that has not terminated within fuel
steps. -/
def lookupAux (tbl : Nat → Nat) (s step : Nat) : Nat → Nat → Option Nat
  | _, 0 => none
  | i, fuel + 1 =>
    let j := (i + step) &&& HASH_MASK
    if tbl j = STATE_EMPTY ∨ tbl j &&& STATE_MASK = s then some j
    else lookupAux tbl s step j fuel

/-- Game::lookup: double hashing with initial index hash s and step the high
HASH_EXP bits of the hash forced odd.  2^HASH_EXP probes always suffice to
visit every slot. -/
def lookup (tbl : Nat → Nat) (s : Nat) : Option Nat :=
  let h := hash s
  lookupAux tbl s ((h >>> (64 - HASH_EXP)) ||| 1) h (2 ^ HASH_EXP)

theorem hash_mask_eq : HASH_MASK = 2 ^ 29 - 1 := by decide

theorem and_hash_mask (x : Nat) : x &&& HASH_MASK = x % 2 ^ 29 := by
  rw [hash_mask_eq]
  exact Nat.and_pow_two_sub_one_eq_mod x 29

theorem or_one_odd (x : Nat) : (x ||| 1) % 2 = 1 := by
  rcases Nat.even_or_odd x with he | ho
  · have h0 : x % 2 = 0 := Nat.even_iff.mp he
    have : x ||| 1 = x + 1 := by
      have := add_eq_or 1 (by norm_num : (1 : Nat) < 2 ^ 1) (x / 2)
      have hx : x = x / 2 * 2 ^ 1 := by omega
      calc x ||| 1 = x / 2 * 2 ^ 1 ||| 1 := by rw [← hx]
        _ = x / 2 * 2 ^ 1 + 1 := (add_eq_or 1 (by norm_num) (x / 2)).symm
        _ = x + 1 := by omega
    omega
  · have h1 : x % 2 = 1 := Nat.odd_iff.mp ho
    have : x ||| 1 = x := by
      apply Nat.eq_of_testBit_eq
      intro i
      cases i with
      | zero =>
        simp only [Nat.testBit_or, Nat.testBit_zero]
        have : decide (x % 2 = 1) = true := by simp [h1]
        simp [h1]
      | succ n =>
        simp only [Nat.testBit_or]
        have : Nat.testBit 1 (n + 1) = false := by
          apply Nat.testBit_lt_two_pow
          have : (2 : Nat) ^ 1 ≤ 2 ^ (n + 1) := Nat.pow_le_pow_right (by norm_num) (by omega)
          omega
        simp [this]
    omega

/-- Coverage: with an odd step, the probe sequence visits every slot of the
2^29-entry table within 2^29 steps. -/
theorem probe_coverage {h step : Nat} (hodd : step % 2 = 1) :
    ∀ j, j < 2 ^ 29 → ∃ k, 1 ≤ k ∧ k ≤ 2 ^ 29 ∧ (h + k * step) % 2 ^ 29 = j := by
  have hcop : Nat.Coprime (2 ^ 29) step := by
    apply Nat.Coprime.pow_left
    exact (Nat.Prime.coprime_iff_not_dvd Nat.prime_two).mpr (by omega)
  have hsurj : ∀ b ∈ Finset.range (2 ^ 29),
      ∃ a, ∃ _ : a ∈ Finset.Icc 1 (2 ^ 29), b = (h + a * step) % 2 ^ 29 := by
    refine Finset.surj_on_of_inj_on_of_card_le (fun k _ => (h + k * step) % 2 ^ 29)
      (fun a ha => Finset.mem_range.mpr (Nat.mod_lt _ (by norm_num)))
      ?_ (by simp [Nat.card_Icc])
    intro a1 a2 ha1 ha2 heq
    rw [Finset.mem_Icc] at ha1 ha2
    by_contra hne
    rcases Nat.lt_or_ge a1 a2 with hlt | hge
    · have hmod : Nat.ModEq (2 ^ 29) (h + a1 * step) (h + a2 * step) := heq
      have hmod2 : Nat.ModEq (2 ^ 29) (a1 * step) (a2 * step) :=
        Nat.ModEq.add_left_cancel' h hmod
      have hdvd : 2 ^ 29 ∣ a2 * step - a1 * step :=
        (Nat.modEq_iff_dvd' (Nat.mul_le_mul_right step (by omega))).mp hmod2
      rw [← Nat.sub_mul] at hdvd
      have hdvd2 : 2 ^ 29 ∣ a2 - a1 := (Nat.Coprime.dvd_of_dvd_mul_right hcop) hdvd
      have : a2 - a1 < 2 ^ 29 := by omega
      have h4 : a2 - a1 = 0 := Nat.eq_zero_of_dvd_of_lt hdvd2 this
      omega
    · have hmod : Nat.ModEq (2 ^ 29) (h + a2 * step) (h + a1 * step) := heq.symm
      have hmod2 : Nat.ModEq (2 ^ 29) (a2 * step) (a1 * step) :=
        Nat.ModEq.add_left_cancel' h hmod
      have hdvd : 2 ^ 29 ∣ a1 * step - a2 * step :=
        (Nat.modEq_iff_dvd' (Nat.mul_le_mul_right step (by omega))).mp hmod2
      rw [← Nat.sub_mul] at hdvd
      have hdvd2 : 2 ^ 29 ∣ a1 - a2 := (Nat.Coprime.dvd_of_dvd_mul_right hcop) hdvd
      have h3 : a1 - a2 < 2 ^ 29 := by omega
      have h4 : a1 - a2 = 0 := Nat.eq_zero_of_dvd_of_lt hdvd2 h3
      omega
  intro j hj
  obtain ⟨k, hk, he⟩ := hsurj j (Finset.mem_range.mpr hj)
  rw [Finset.mem_Icc] at hk
  exact ⟨k, hk.1, hk.2, he.symm⟩

/-- The probe loop terminates at a good slot as soon as some probed position
within the fuel budget is good. -/
theorem lookupAux_spec (tbl : Nat → Nat) (s step : Nat) :
    ∀ fuel i,
      (∃ k, 1 ≤ k ∧ k ≤ fuel ∧
        (tbl ((i + k * step) % 2 ^ 29) = STATE_EMPTY ∨
          tbl ((i + k * step) % 2 ^ 29) &&& STATE_MASK = s)) →
      ∃ j, lookupAux tbl s step i fuel = some j ∧ j < 2 ^ 29 ∧
        (tbl j = STATE_EMPTY ∨ tbl j &&& STATE_MASK = s) := by
  intro fuel
  induction fuel with
  | zero =>
    rintro i ⟨k, hk1, hk2, _⟩
    omega
  | succ fuel ih =>
    rintro i ⟨k, hk1, hk2, hg⟩
    simp only [lookupAux, and_hash_mask]
    by_cases hj : tbl ((i + step) % 2 ^ 29) = STATE_EMPTY ∨
        tbl ((i + step) % 2 ^ 29) &&& STATE_MASK = s
    · rw [if_pos hj]
      exact ⟨(i + step) % 2 ^ 29, rfl, Nat.mod_lt _ (by norm_num), hj⟩
    · rw [if_neg hj]
      have hk1' : 2 ≤ k := by
        rcases Nat.eq_or_lt_of_le hk1 with h1 | h1
        · exfalso
          apply hj
          have e : i + 1 * step = i + step := by ring
          rw [← h1, e] at hg
          exact hg
        · omega
      apply ih
      obtain ⟨k2, rfl⟩ : ∃ k2, k = k2 + 2 := ⟨k - 2, by omega⟩
      refine ⟨k2 + 1, by omega, by omega, ?_⟩
      rw [Nat.mod_add_mod]
      have e : i + step + (k2 + 1) * step = i + (k2 + 2) * step := by ring
      rw [e]
      exact hg

/-- Whenever the table has a good slot for s somewhere, lookup terminates
and returns a good slot. -/
theorem lookup_finds (tbl : Nat → Nat) (s : Nat)
    (hex : ∃ j, j < 2 ^ HASH_EXP ∧ (tbl j = STATE_EMPTY ∨ tbl j &&& STATE_MASK = s)) :
    ∃ j, lookup tbl s = some j ∧ j < 2 ^ HASH_EXP ∧
      (tbl j = STATE_EMPTY ∨ tbl j &&& STATE_MASK = s) := by
  obtain ⟨j0, hj0, hg0⟩ := hex
  have hodd : ((hash s >>> (64 - HASH_EXP)) ||| 1) % 2 = 1 := or_one_odd _
  obtain ⟨k, hk1, hk2, hke⟩ := probe_coverage hodd j0 hj0
  unfold lookup
  apply lookupAux_spec
  refine ⟨k, hk1, hk2, ?_⟩
  rw [hke]
  exact hg0

/-- Claim C5: lookup probes with step the high HASH_EXP bits of the hash
forced odd; oddness makes the probe sequence starting from the hash visit
every slot of the 2^HASH_EXP table within 2^HASH_EXP steps, so lookup
terminates whenever an empty slot or a matching slot exists, and the slot it
returns is empty or matches the key's low 54 bits. -/
theorem claim_C5_lookup_probing (tbl : Nat → Nat) (s : Nat) :
    ((hash s >>> (64 - HASH_EXP)) ||| 1) % 2 = 1 ∧
    (∀ j, j < 2 ^ HASH_EXP → ∃ k, 1 ≤ k ∧ k ≤ 2 ^ HASH_EXP ∧
      (hash s + k * ((hash s >>> (64 - HASH_EXP)) ||| 1)) % 2 ^ HASH_EXP = j) ∧
    ((∃ j, j < 2 ^ HASH_EXP ∧ (tbl j = STATE_EMPTY ∨ tbl j &&& STATE_MASK = s)) →
      ∃ j, lookup tbl s = some j ∧ j < 2 ^ HASH_EXP ∧
        (tbl j = STATE_EMPTY ∨ tbl j &&& STATE_MASK = s)) :=
  ⟨or_one_odd _, probe_coverage (or_one_odd _), lookup_finds tbl s⟩

/-- Witness for claim C5 on the all-empty table and key 0. -/
theorem claim_C5_witness :
    ((hash 0 >>> (64 - HASH_EXP)) ||| 1) % 2 = 1 ∧
      (∃ j, lookup (fun _ => STATE_EMPTY) 0 = some j ∧ j < 2 ^ HASH_EXP ∧
        (STATE_EMPTY = STATE_EMPTY ∨ STATE_EMPTY &&& STATE_MASK = 0)) :=
  ⟨(claim_C5_lookup_probing (fun _ => STATE_EMPTY) 0).1,
    (claim_C5_lookup_probing (fun _ => STATE_EMPTY) 0).2.2
      ⟨0, by norm_num, Or.inl rfl⟩⟩

/-- Claim C9: looking up a state absent from the table returns a slot
holding the empty sentinel 0x3, whose unpacked value 2 differs from every
valid game value in {-1, 0, 1}. -/
theorem claim_C9_empty_sentinel (tbl : Nat → Nat) (s : Nat)
    (habs : ∀ j, j < 2 ^ HASH_EXP → tbl j = STATE_EMPTY ∨ tbl j &&& STATE_MASK ≠ s)
    (hempty : ∃ j, j < 2 ^ HASH_EXP ∧ tbl j = STATE_EMPTY) :
    (∃ j, lookup tbl s = some j ∧ tbl j = STATE_EMPTY) ∧
    unpack_value STATE_EMPTY = 2 ∧ unpack_value STATE_EMPTY ≠ -1 ∧
    unpack_value STATE_EMPTY ≠ 0 ∧ unpack_value STATE_EMPTY ≠ 1 := by
  refine ⟨?_, by decide, by decide, by decide, by decide⟩
  obtain ⟨j0, hj0, he0⟩ := hempty
  obtain ⟨j, hjl, hjlt, hg⟩ := lookup_finds tbl s ⟨j0, hj0, Or.inl he0⟩
  refine ⟨j, hjl, ?_⟩
  rcases hg with hg | hg
  · exact hg
  · rcases habs j hjlt with h | h
    · exact h
    · exact absurd hg h

/-- Witness for claim C9 on the all-empty table and key 0. -/
theorem claim_C9_witness :
    (∀ j, j < 2 ^ HASH_EXP →
      (fun _ : Nat => STATE_EMPTY) j = STATE_EMPTY ∨
        (fun _ : Nat => STATE_EMPTY) j &&& STATE_MASK ≠ 0) ∧
    (∃ j, j < 2 ^ HASH_EXP ∧ (fun _ : Nat => STATE_EMPTY) j = STATE_EMPTY) ∧
    ((∃ j, lookup (fun _ : Nat => STATE_EMPTY) 0 = some j ∧
        (fun _ : Nat => STATE_EMPTY) j = STATE_EMPTY) ∧
      unpack_value STATE_EMPTY = 2 ∧ unpack_value STATE_EMPTY ≠ -1 ∧
      unpack_value STATE_EMPTY ≠ 0 ∧ unpack_value STATE_EMPTY ≠ 1) :=
  ⟨fun _ _ => Or.inl rfl, ⟨0, by norm_num, rfl⟩,
    claim_C9_empty_sentinel (fun _ => STATE_EMPTY) 0 (fun _ _ => Or.inl rfl)
      ⟨0, by norm_num, rfl⟩⟩


/-! ## Moves (struct Move, Game::move, Game::get_moves, Game::get_unmoves,
Game::best_move) -/

/-- Rule variation parameters (the data members of class Game). -/
structure Rules where
  num_sizes : Nat
  num_per_size : Nat
  allow_move : Bool
deriving DecidableEq

/-- A move: starting and ending square in 0..8 when moving a piece on the
board, or start in {-1, -2, -3} to play a new piece of the negated size. -/
structure Move where
  start : Int
  «end» : Int
deriving DecidableEq

/-- Fuel-based unrolling of the owner/size scan loop
for (; pieces != 0; ++size, pieces >>= 2); the result is the number of
iterations, i.e. the 2-bit index just above the topmost nonzero field. -/
def topSizeGo : Nat → Nat → Nat
  | 0, _ => 0
  | fuel + 1, pieces => if pieces = 0 then 0 else topSizeGo fuel (pieces >>> 2) + 1

/-- The size of the top piece of a 6-bit stack: the scan loop's final size
value (0 for an empty stack). -/
def topSize (pieces : Nat) : Nat := topSizeGo pieces pieces

theorem topSizeGo_fuel {f1 f2 p : Nat} (h1 : p ≤ f1) (h2 : p ≤ f2) :
    topSizeGo f1 p = topSizeGo f2 p := by
  induction f1 generalizing p f2 with
  | zero =>
    have : p = 0 := by omega
    subst this
    cases f2 <;> simp [topSizeGo]
  | succ f1 ih =>
    cases f2 with
    | zero =>
      have : p = 0 := by omega
      subst this
      simp [topSizeGo]
    | succ g =>
      simp only [topSizeGo]
      by_cases h : p = 0
      · rw [if_pos h, if_pos h]
      · rw [if_neg h, if_neg h]
        have hp : p >>> 2 = p / 4 := by
          rw [Nat.shiftRight_eq_div_pow]
        have he : topSizeGo f1 (p >>> 2) = topSizeGo g (p >>> 2) := ih (by omega) (by omega)
        rw [he]

/-- The loop unfolding equation for topSize. -/
theorem topSize_eq (p : Nat) : topSize p = if p = 0 then 0 else topSize (p >>> 2) + 1 := by
  unfold topSize
  by_cases h : p = 0
  · subst h
    simp [topSizeGo]
  · rw [if_neg h]
    obtain ⟨q, rfl⟩ : ∃ q, p = q + 1 := ⟨p - 1, by omega⟩
    simp only [topSizeGo]
    rw [if_neg h]
    have hp : (q + 1) >>> 2 = (q + 1) / 4 := by
      rw [Nat.shiftRight_eq_div_pow]
    have he : topSizeGo q ((q + 1) >>> 2) = topSizeGo ((q + 1) >>> 2) ((q + 1) >>> 2) :=
      topSizeGo_fuel (by omega) (by omega)
    rw [he]

/-- Make move as current player (Game::move): a nonnegative start removes
the top piece of the start square by XOR, then the piece lands on the end
square by XOR; a negative start plays a new piece of size -start. -/
def move (s : Nat) (m : Move) : Nat :=
  if m.start ≥ 0 then
    let pieces := sqPieces s m.start.toNat
    let size := topSize pieces
    (s ^^^ (1 <<< (6 * m.start.toNat + 2 * (size - 1)))) ^^^
      (1 <<< (6 * m.«end».toNat + 2 * (size - 1)))
  else
    let size := (-m.start).toNat
    s ^^^ (1 <<< (6 * m.«end».toNat + 2 * (size - 1)))

/-- Record a move if its canonical successor is new: the std::set dedup of
Game::get_moves, keeping only moves distinct up to symmetry. -/
def addMove (s : Nat) (m : Move) (acc : List Move × List Nat) : List Move × List Nat :=
  let next := canonical (swap (move s m))
  if next ∈ acc.2 then acc else (acc.1 ++ [m], next :: acc.2)

/-- Number of the current player's pieces of 2-bit index k on the board: the
played[] array of Game::get_moves.  The scan loop increments played[size]
once for every square whose field at index size holds the pattern 01, which
is exactly this count (fields above the top of a stack are zero). -/
def played (s : Nat) (k : Nat) : Nat :=
  ((List.range 9).filter (fun q => (s >>> (6 * q + 2 * k)) &&& 0x3 == 1)).length

/-- One end-square trial of the board-move scan of Game::get_moves: the
moved piece must be larger than the whole destination stack. -/
def gmRelocInner (s st size : Nat) (acc2 : List Move × List Nat) (en : Nat) :
    List Move × List Nat :=
  let p2 := sqPieces s en
  if 1 <<< (2 * (size - 1)) > p2 then addMove s ⟨(st : Int), (en : Int)⟩ acc2 else acc2

/-- One start-square step of the board-move scan of Game::get_moves: only
squares whose top piece belongs to the current player may move. -/
def gmRelocStep (r : Rules) (s : Nat) (acc : List Move × List Nat) (st : Nat) :
    List Move × List Nat :=
  let pieces := sqPieces s st
  if r.allow_move && (topPiece pieces == 1) then
    (List.range 9).foldl (gmRelocInner s st (topSize pieces)) acc
  else acc

/-- One end-square trial of the new-piece scan of Game::get_moves. -/
def gmPlaceInner (s size : Nat) (acc2 : List Move × List Nat) (en : Nat) :
    List Move × List Nat :=
  let p2 := sqPieces s en
  if 1 <<< (2 * (size - 1)) > p2 then addMove s ⟨-(size : Int), (en : Int)⟩ acc2 else acc2

/-- One size step of the new-piece scan of Game::get_moves: a piece of this
size must remain off the board. -/
def gmPlaceStep (r : Rules) (s : Nat) (acc : List Move × List Nat) (size : Nat) :
    List Move × List Nat :=
  if played s (size - 1) < r.num_per_size then
    (List.range 9).foldl (gmPlaceInner s size) acc
  else acc

/-- Game::get_moves: possible moves for the current player, ignoring whether
the position is already terminal; board moves first (only when allow_move),
then new-piece placements, deduplicated by canonical successor. -/
def get_moves (r : Rules) (s : Nat) : List Move :=
  ((List.range' 1 r.num_sizes).foldl (gmPlaceStep r s)
    ((List.range 9).foldl (gmRelocStep r s) ([], []))).1

/-- Insert into the unmoves result set (std::set semantics: membership). -/
def insertState (x : Nat) (xs : List Nat) : List Nat := if x ∈ xs then xs else x :: xs

/-- One start-square trial of the move-back scan of Game::get_unmoves: the
piece may be moved back onto any strictly smaller stack; the previous state
is kept only if the game was not already over there. -/
def unmoveRelocInner (s en size : Nat) (acc2 : List Nat) (st : Nat) : List Nat :=
  let p2 := sqPieces s st
  if 1 <<< (2 * (size - 1)) > p2 then
    let prev := move s ⟨(en : Int), (st : Int)⟩
    if get_terminal_value prev == 0 then insertState (canonical prev) acc2 else acc2
  else acc2

/-- One square step of Game::get_unmoves: if the top piece of the square is
the previous mover's, try moving it back (when allow_move) and unplaying it. -/
def unmoveStep (r : Rules) (s : Nat) (acc : List Nat) (en : Nat) : List Nat :=
  let pieces := sqPieces s en
  let size := topSize pieces
  if topPiece pieces == 1 then
    let acc1 :=
      if r.allow_move then (List.range 9).foldl (unmoveRelocInner s en size) acc else acc
    let prev := move s ⟨-(size : Int), (en : Int)⟩
    if get_terminal_value prev == 0 then insertState (canonical prev) acc1 else acc1
  else acc

/-- Game::get_unmoves: canonical previous states leading to the given state
in one move of the other side; the state is swapped first so the previous
mover's pieces read as the current player's. -/
def get_unmoves (r : Rules) (t : Nat) : List Nat :=
  (List.range 9).foldl (unmoveStep r (swap t)) []

/-- Game::best_move: the move maximizing the stored word of the canonical
successor, with the solved table abstracted as the function tbl from a state
key to the stored word *lookup(key). -/
def best_move (tbl : Nat → Nat) (r : Rules) (s : Nat) : Move :=
  ((get_moves r s).foldl (fun acc m =>
    let next := tbl (canonical (swap (move s m)))
    if next > acc.2 then (m, next) else acc) (⟨0, 0⟩, 0)).1


/-- Claim C8: Game::swap is an involution on 54-bit states. -/
theorem claim_C8_swap_involution {s : Nat} (hs : s < 2 ^ 54) : swap (swap s) = s :=
  swap_swap hs

/-- Witness for claim C8 at a concrete two-stack state. -/
theorem claim_C8_witness :
    (1 + 2 ^ 7 + 2 ^ 12 : Nat) < 2 ^ 54 ∧
      swap (swap (1 + 2 ^ 7 + 2 ^ 12)) = 1 + 2 ^ 7 + 2 ^ 12 :=
  ⟨by norm_num, claim_C8_swap_involution (by norm_num)⟩


/-! ## Best-move selection (claim C1) -/

/-- Shape of a solved word stored in the table: a 54-bit board plus a packed
value whose 10-bit field lies in the win range 256..383 (depth below 128),
the draw range 512..767, or the loss range 896..1023 (depth below 128). -/
def stored_word (w : Nat) : Prop :=
  w < 2 ^ 64 ∧ ((256 ≤ w >>> 54 ∧ w >>> 54 < 384) ∨ (512 ≤ w >>> 54 ∧ w >>> 54 < 768) ∨
    (896 ≤ w >>> 54 ∧ w >>> 54 < 1024))

instance (w : Nat) : Decidable (stored_word w) := by
  unfold stored_word
  infer_instance

theorem stored_word_pos {w : Nat} (hw : stored_word w) : 0 < w := by
  obtain ⟨h64, hr⟩ := hw
  rw [Nat.shiftRight_eq_div_pow] at hr
  omega

theorem shift54_mono {a b : Nat} (h : a ≤ b) : a >>> 54 ≤ b >>> 54 := by
  rw [Nat.shiftRight_eq_div_pow, Nat.shiftRight_eq_div_pow]
  exact Nat.div_le_div_right h

/-- The unpacked value of a stored word, by field range. -/
theorem unpack_value_stored {w : Nat} (hw : stored_word w) :
    unpack_value w = (if w >>> 54 < 384 then 1 else if w >>> 54 < 768 then 0 else -1) := by
  obtain ⟨h64, hr⟩ := hw
  unfold unpack_value
  have e : w >>> 62 = w >>> 54 / 256 := by
    rw [Nat.shiftRight_eq_div_pow, Nat.shiftRight_eq_div_pow]
    omega
  rw [e]
  split_ifs with h1 h2 <;> omega

/-- The unpacked move count of any 64-bit word, by upper field. -/
theorem unpack_moves_stored {w : Nat} (h64 : w < 2 ^ 64) :
    unpack_moves w =
      (if w >>> 54 % 256 < 128 then w >>> 54 % 256 else 255 - w >>> 54 % 256) := by
  have hsplit : w = (w >>> 54) * 2 ^ 54 + w % 2 ^ 54 := by
    rw [Nat.shiftRight_eq_div_pow]
    omega
  conv_lhs => rw [hsplit]
  rw [unpack_moves_split (Nat.mod_lt _ (by norm_num))
    (by rw [Nat.shiftRight_eq_div_pow]; omega)]

/-- The running-maximum fold underlying Game::best_move. -/
theorem bm_fold (word : Move → Nat) (ms : List Move) :
    ∀ (b : Move) (mx : Nat),
      ((ms.foldl (fun acc m => if word m > acc.2 then (m, word m) else acc) (b, mx)) =
          (b, mx) ∨
        (∃ m ∈ ms,
          (ms.foldl (fun acc m => if word m > acc.2 then (m, word m) else acc) (b, mx)).1 = m ∧
          (ms.foldl (fun acc m => if word m > acc.2 then (m, word m) else acc) (b, mx)).2 =
            word m)) ∧
      mx ≤ (ms.foldl (fun acc m => if word m > acc.2 then (m, word m) else acc) (b, mx)).2 ∧
      ∀ m ∈ ms,
        word m ≤ (ms.foldl (fun acc m => if word m > acc.2 then (m, word m) else acc) (b, mx)).2 := by
  induction ms with
  | nil =>
    intro b mx
    exact ⟨Or.inl rfl, le_refl _, by simp⟩
  | cons m0 tl ih =>
    intro b mx
    simp only [List.foldl_cons]
    by_cases h0 : word m0 > mx
    · rw [if_pos h0]
      obtain ⟨hres, hle, hall⟩ := ih m0 (word m0)
      refine ⟨?_, by omega, ?_⟩
      · rcases hres with h | ⟨m, hm, h1, h2⟩
        · right
          refine ⟨m0, by simp, ?_, ?_⟩
          · rw [h]
          · rw [h]
        · right
          exact ⟨m, by simp [hm], h1, h2⟩
      · intro m hm
        rcases List.mem_cons.mp hm with rfl | hm'
        · have := hle
          omega
        · exact hall m hm'
    · rw [if_neg h0]
      obtain ⟨hres, hle, hall⟩ := ih b mx
      refine ⟨?_, hle, ?_⟩
      · rcases hres with h | ⟨m, hm, h1, h2⟩
        · left
          exact h
        · right
          exact ⟨m, by simp [hm], h1, h2⟩
      · intro m hm
        rcases List.mem_cons.mp hm with rfl | hm'
        · omega
        · exact hall m hm'

/-- Claim C1: with every legal successor looked up to a well-formed stored
word, best_move returns a legal move whose successor word is maximum in the
unsigned 64-bit order; under the pack encoding this picks a successor that
is a fastest loss for the opponent (a fastest win) when one exists, else a
draw when one exists, else a slowest win for the opponent (a slowest loss). -/
theorem claim_C1_best_move (tbl : Nat → Nat) (r : Rules) (s : Nat)
    (hne : get_moves r s ≠ [])
    (hwf : ∀ m ∈ get_moves r s, stored_word (tbl (canonical (swap (move s m))))) :
    best_move tbl r s ∈ get_moves r s ∧
    (∀ m ∈ get_moves r s,
      tbl (canonical (swap (move s m))) ≤
        tbl (canonical (swap (move s (best_move tbl r s))))) ∧
    ((∃ m ∈ get_moves r s, unpack_value (tbl (canonical (swap (move s m)))) = -1) →
      unpack_value (tbl (canonical (swap (move s (best_move tbl r s))))) = -1 ∧
      ∀ m ∈ get_moves r s, unpack_value (tbl (canonical (swap (move s m)))) = -1 →
        unpack_moves (tbl (canonical (swap (move s (best_move tbl r s))))) ≤
          unpack_moves (tbl (canonical (swap (move s m))))) ∧
    (((∀ m ∈ get_moves r s, unpack_value (tbl (canonical (swap (move s m)))) ≠ -1) ∧
      (∃ m ∈ get_moves r s, unpack_value (tbl (canonical (swap (move s m)))) = 0)) →
      unpack_value (tbl (canonical (swap (move s (best_move tbl r s))))) = 0) ∧
    ((∀ m ∈ get_moves r s, unpack_value (tbl (canonical (swap (move s m)))) = 1) →
      unpack_value (tbl (canonical (swap (move s (best_move tbl r s))))) = 1 ∧
      ∀ m ∈ get_moves r s,
        unpack_moves (tbl (canonical (swap (move s m)))) ≤
          unpack_moves (tbl (canonical (swap (move s (best_move tbl r s)))))) := by
  have hfold := bm_fold (fun m => tbl (canonical (swap (move s m)))) (get_moves r s) ⟨0, 0⟩ 0
  obtain ⟨hres, -, hall⟩ := hfold
  obtain ⟨m0, hm0⟩ := List.exists_mem_of_ne_nil _ hne
  have hpos : 0 < tbl (canonical (swap (move s m0))) := stored_word_pos (hwf m0 hm0)
  rcases hres with hinit | ⟨mb, hmb, hres1, hres2⟩
  · exfalso
    have := hall m0 hm0
    rw [hinit] at this
    omega
  have hbm : best_move tbl r s =
      ((get_moves r s).foldl
        (fun acc m => if tbl (canonical (swap (move s m))) > acc.2
          then (m, tbl (canonical (swap (move s m)))) else acc) (⟨0, 0⟩, 0)).1 := rfl
  rw [hbm, hres1]
  have hmax : ∀ m ∈ get_moves r s,
      tbl (canonical (swap (move s m))) ≤ tbl (canonical (swap (move s mb))) := by
    intro m hm
    have := hall m hm
    rw [hres2] at this
    exact this
  refine ⟨hmb, hmax, ?_, ?_, ?_⟩
  · rintro ⟨m1, hm1, hv1⟩
    have hw1 := hwf m1 hm1
    have hwb := hwf mb hmb
    have hf1 : 896 ≤ tbl (canonical (swap (move s m1))) >>> 54 := by
      rw [unpack_value_stored hw1] at hv1
      rcases hw1.2 with h | h | h <;> split_ifs at hv1 with h1 h2 <;> omega
    have hfb : 896 ≤ tbl (canonical (swap (move s mb))) >>> 54 :=
      le_trans hf1 (shift54_mono (hmax m1 hm1))
    have hvb : unpack_value (tbl (canonical (swap (move s mb)))) = -1 := by
      rw [unpack_value_stored hwb]
      rw [if_neg (by omega), if_neg (by omega)]
    refine ⟨hvb, ?_⟩
    intro m hm hv
    have hwm := hwf m hm
    have hfm : 896 ≤ tbl (canonical (swap (move s m))) >>> 54 := by
      rw [unpack_value_stored hwm] at hv
      rcases hwm.2 with h | h | h <;> split_ifs at hv with h1 h2 <;> omega
    have hmono := shift54_mono (hmax m hm)
    rw [unpack_moves_stored hwm.1, unpack_moves_stored hwb.1]
    have hfm2 : tbl (canonical (swap (move s m))) >>> 54 < 1024 := by
      rcases hwm.2 with h | h | h <;> omega
    have hfb2 : tbl (canonical (swap (move s mb))) >>> 54 < 1024 := by
      rcases hwb.2 with h | h | h <;> omega
    rw [if_neg (by omega), if_neg (by omega)]
    omega
  · rintro ⟨hno, m2, hm2, hv2⟩
    have hw2 := hwf m2 hm2
    have hwb := hwf mb hmb
    have hf2 : 512 ≤ tbl (canonical (swap (move s m2))) >>> 54 := by
      rw [unpack_value_stored hw2] at hv2
      rcases hw2.2 with h | h | h <;> split_ifs at hv2 with h1 h2 <;> omega
    have hfb : 512 ≤ tbl (canonical (swap (move s mb))) >>> 54 :=
      le_trans hf2 (shift54_mono (hmax m2 hm2))
    have hnb := hno mb hmb
    have hfb9 : tbl (canonical (swap (move s mb))) >>> 54 < 896 := by
      by_contra hge
      exact hnb (by rw [unpack_value_stored hwb, if_neg (by omega), if_neg (by omega)])
    rw [unpack_value_stored hwb]
    rw [if_neg (by omega), if_pos (by rcases hwb.2 with h | h | h <;> omega)]
  · intro hall1
    have hwb := hwf mb hmb
    have hvb := hall1 mb hmb
    have hfb : tbl (canonical (swap (move s mb))) >>> 54 < 384 := by
      rw [unpack_value_stored hwb] at hvb
      split_ifs at hvb with h1 h2 <;> omega
    refine ⟨by rw [unpack_value_stored hwb, if_pos hfb], ?_⟩
    intro m hm
    have hwm := hwf m hm
    have hvm := hall1 m hm
    have hfm : tbl (canonical (swap (move s m))) >>> 54 < 384 := by
      rw [unpack_value_stored hwm] at hvm
      split_ifs at hvm with h1 h2 <;> omega
    have hfm1 : 256 ≤ tbl (canonical (swap (move s m))) >>> 54 := by
      rcases hwm.2 with h | h | h <;> omega
    have hfb1 : 256 ≤ tbl (canonical (swap (move s mb))) >>> 54 := by
      rcases hwb.2 with h | h | h <;> omega
    have hmono := shift54_mono (hmax m hm)
    rw [unpack_moves_stored hwm.1, unpack_moves_stored hwb.1]
    rw [if_pos (by omega), if_pos (by omega)]
    omega

/-- Witness for claim C1: the one-size, one-piece, no-relocation game from
the empty board, with a table mapping every key to a loss-in-127 word. -/
theorem claim_C1_witness :
    (get_moves ⟨1, 1, false⟩ 0 ≠ [] ∧
      ∀ m ∈ get_moves ⟨1, 1, false⟩ 0,
        stored_word (canonical (swap (move 0 m)) + 896 * 2 ^ 54)) ∧
    (best_move (fun t => t + 896 * 2 ^ 54) ⟨1, 1, false⟩ 0 ∈ get_moves ⟨1, 1, false⟩ 0 ∧
      (∀ m ∈ get_moves ⟨1, 1, false⟩ 0,
        canonical (swap (move 0 m)) + 896 * 2 ^ 54 ≤
          canonical (swap (move 0 (best_move (fun t => t + 896 * 2 ^ 54) ⟨1, 1, false⟩ 0))) +
            896 * 2 ^ 54) ∧
      ((∃ m ∈ get_moves ⟨1, 1, false⟩ 0,
        unpack_value (canonical (swap (move 0 m)) + 896 * 2 ^ 54) = -1) →
        unpack_value
          (canonical (swap (move 0 (best_move (fun t => t + 896 * 2 ^ 54) ⟨1, 1, false⟩ 0))) +
            896 * 2 ^ 54) = -1 ∧
        ∀ m ∈ get_moves ⟨1, 1, false⟩ 0,
          unpack_value (canonical (swap (move 0 m)) + 896 * 2 ^ 54) = -1 →
          unpack_moves
            (canonical (swap (move 0 (best_move (fun t => t + 896 * 2 ^ 54) ⟨1, 1, false⟩ 0))) +
              896 * 2 ^ 54) ≤
            unpack_moves (canonical (swap (move 0 m)) + 896 * 2 ^ 54)) ∧
      (((∀ m ∈ get_moves ⟨1, 1, false⟩ 0,
        unpack_value (canonical (swap (move 0 m)) + 896 * 2 ^ 54) ≠ -1) ∧
        (∃ m ∈ get_moves ⟨1, 1, false⟩ 0,
          unpack_value (canonical (swap (move 0 m)) + 896 * 2 ^ 54) = 0)) →
        unpack_value
          (canonical (swap (move 0 (best_move (fun t => t + 896 * 2 ^ 54) ⟨1, 1, false⟩ 0))) +
            896 * 2 ^ 54) = 0) ∧
      ((∀ m ∈ get_moves ⟨1, 1, false⟩ 0,
        unpack_value (canonical (swap (move 0 m)) + 896 * 2 ^ 54) = 1) →
        unpack_value
          (canonical (swap (move 0 (best_move (fun t => t + 896 * 2 ^ 54) ⟨1, 1, false⟩ 0))) +
            896 * 2 ^ 54) = 1 ∧
        ∀ m ∈ get_moves ⟨1, 1, false⟩ 0,
          unpack_moves (canonical (swap (move 0 m)) + 896 * 2 ^ 54) ≤
            unpack_moves
              (canonical
                  (swap (move 0 (best_move (fun t => t + 896 * 2 ^ 54) ⟨1, 1, false⟩ 0))) +
                896 * 2 ^ 54))) :=
  ⟨⟨by decide, by decide⟩,
    claim_C1_best_move (fun t => t + 896 * 2 ^ 54) ⟨1, 1, false⟩ 0 (by decide) (by decide)⟩

/-! ## Dihedral action toolkit for the move/unmove round trip -/

theorem xor_lt_54 {a b : Nat} (ha : a < 2 ^ 54) (hb : b < 2 ^ 54) : a ^^^ b < 2 ^ 54 := by
  apply Nat.lt_pow_two_of_testBit
  intro i hi
  rw [Nat.testBit_xor, testBit_high ha hi, testBit_high hb hi]
  rfl

theorem shift_bit_lt {q j : Nat} (hq : q < 9) (hj : j < 6) : 1 <<< (6 * q + j) < 2 ^ 54 := by
  have h1 : (1 : Nat) <<< (6 * q + j) = 2 ^ (6 * q + j) := Nat.one_shiftLeft _
  have h2 : (2 : Nat) ^ (6 * q + j) ≤ 2 ^ 53 := Nat.pow_le_pow_right (by norm_num) (by omega)
  have h3 : (2 : Nat) ^ 53 < 2 ^ 54 := by norm_num
  omega

/-- A bit-permutation operator is XOR-linear on 54-bit states. -/
theorem bitPermOp_xor {op p} (h : BitPermOp op p) {a b : Nat} (ha : a < 2 ^ 54)
    (hb : b < 2 ^ 54) : op (a ^^^ b) = op a ^^^ op b := by
  apply Nat.eq_of_testBit_eq
  intro i
  rw [Nat.testBit_xor, h.bits _ (xor_lt_54 ha hb), h.bits _ ha, h.bits _ hb, Nat.testBit_xor]
  cases decide (i < 54) <;> cases a.testBit (p i) <;> cases b.testBit (p i) <;> rfl

theorem testBit_one_shiftLeft (k i : Nat) : (1 <<< k).testBit i = decide (k = i) := by
  rw [Nat.one_shiftLeft]
  by_cases h : k = i
  · subst h
    simp [Nat.testBit_two_pow_self]
  · rw [Nat.testBit_two_pow_of_ne h]
    simp [h]

/-- A bit-permutation operator respecting square boundaries maps a single
piece bit to the piece bit of the inverse-image square. -/
theorem bitPermOp_bit {op p} (h : BitPermOp op p) (sg tu : Nat → Nat)
    (hsg : ∀ q, q < 9 → ∀ j, j < 6 → p (6 * q + j) = 6 * sg q + j)
    (hsglt : ∀ q, q < 9 → sg q < 9)
    (htult : ∀ q, q < 9 → tu q < 9)
    (hsgtu : ∀ q, q < 9 → sg (tu q) = q)
    (hinj : ∀ a, a < 9 → ∀ b, b < 9 → sg a = sg b → a = b)
    {q j : Nat} (hq : q < 9) (hj : j < 6) :
    op (1 <<< (6 * q + j)) = 1 <<< (6 * tu q + j) := by
  apply Nat.eq_of_testBit_eq
  intro i
  rw [h.bits _ (shift_bit_lt hq hj), testBit_one_shiftLeft, testBit_one_shiftLeft]
  by_cases hi : i < 54
  · rw [decide_eq_true hi, Bool.true_and, decide_eq_decide]
    constructor
    · intro hpe
      have hq' : i / 6 < 9 := by omega
      have hj' : i % 6 < 6 := by omega
      have hdecomp : i = 6 * (i / 6) + i % 6 := by omega
      rw [hdecomp, hsg (i / 6) hq' (i % 6) hj'] at hpe
      have hsgq : sg (i / 6) < 9 := hsglt (i / 6) hq'
      have h6 : sg (i / 6) = q ∧ i % 6 = j := by omega
      have heq : i / 6 = tu q := by
        apply hinj (i / 6) hq' (tu q) (htult q hq)
        rw [h6.1, hsgtu q hq]
      omega
    · intro hie
      rw [← hie, hsg (tu q) (htult q hq) j hj, hsgtu q hq]
  · have h1 : decide (i < 54) = false := decide_eq_false hi
    have h2 : decide (6 * tu q + j = i) = false := by
      apply decide_eq_false
      have := htult q hq
      omega
    rw [h1, Bool.false_and, h2]

/-- swap commutes with flipud on 54-bit states. -/
theorem swap_flipud {s : Nat} (hs : s < 2 ^ 54) : swap (flipud s) = flipud (swap s) :=
  BitPermOp.ext_eq (bp_swap.comp bp_flipud) (bp_flipud.comp bp_swap) (by decide) hs

/-- swap commutes with antitranspose on 54-bit states. -/
theorem swap_antitranspose {s : Nat} (hs : s < 2 ^ 54) :
    swap (antitranspose s) = antitranspose (swap s) :=
  BitPermOp.ext_eq (bp_swap.comp bp_antitranspose) (bp_antitranspose.comp bp_swap)
    (by decide) hs

/-- Everything the move/unmove round trip needs from a board symmetry w:
it is a 54-bit operator permuting the square stacks by sg (with inverse tu),
mapping single piece bits accordingly, XOR-linear, commuting with swap, and
leaving the terminal value and the canonical form unchanged. -/
structure DihedralAction (w : Nat → Nat) (sg tu : Nat → Nat) : Prop where
  lt : ∀ s, s < 2 ^ 54 → w s < 2 ^ 54
  sq : ∀ s, s < 2 ^ 54 → ∀ q, q < 9 → sqPieces (w s) q = sqPieces s (sg q)
  sigma_lt : ∀ q, q < 9 → sg q < 9
  tau_lt : ∀ q, q < 9 → tu q < 9
  sigma_tau : ∀ q, q < 9 → sg (tu q) = q
  bit : ∀ q, q < 9 → ∀ j, j < 6 → w (1 <<< (6 * q + j)) = 1 <<< (6 * tu q + j)
  xor : ∀ a, a < 2 ^ 54 → ∀ b, b < 2 ^ 54 → w (a ^^^ b) = w a ^^^ w b
  swapc : ∀ s, s < 2 ^ 54 → swap (w s) = w (swap s)
  gtv : ∀ s, s < 2 ^ 54 → get_terminal_value (w s) = get_terminal_value s
  canon : ∀ s, s < 2 ^ 54 → canonical (w s) = canonical s

theorem da_id : DihedralAction (fun s => s) (fun q => q) (fun q => q) := by
  constructor
  · intro s hs
    exact hs
  · intro s _ q _
    rfl
  · intro q hq
    exact hq
  · intro q hq
    exact hq
  · intro q _
    rfl
  · intro q _ j _
    rfl
  · intro a _ b _
    rfl
  · intro s _
    rfl
  · intro s _
    rfl
  · intro s _
    rfl

theorem da_flipud : DihedralAction flipud sqPermF sqPermF := by
  constructor
  · intro s hs
    exact flipud_lt hs
  · intro s hs q hq
    exact sqPieces_flipud hs hq
  · decide
  · decide
  · decide
  · intro q hq j hj
    exact bitPermOp_bit bp_flipud sqPermF sqPermF (by decide) (by decide) (by decide)
      (by decide) (by decide) hq hj
  · intro a ha b hb
    exact bitPermOp_xor bp_flipud ha hb
  · intro s hs
    exact swap_flipud hs
  · intro s hs
    exact gtv_flipud hs
  · intro s hs
    exact canonical_flipud hs

theorem da_antitranspose : DihedralAction antitranspose sqPermA sqPermA := by
  constructor
  · intro s hs
    exact antitranspose_lt hs
  · intro s hs q hq
    exact sqPieces_antitranspose hs hq
  · decide
  · decide
  · decide
  · intro q hq j hj
    exact bitPermOp_bit bp_antitranspose sqPermA sqPermA (by decide) (by decide) (by decide)
      (by decide) (by decide) hq hj
  · intro a ha b hb
    exact bitPermOp_xor bp_antitranspose ha hb
  · intro s hs
    exact swap_antitranspose hs
  · intro s hs
    exact gtv_antitranspose hs
  · intro s hs
    exact canonical_antitranspose hs

theorem da_comp {w1 sg1 tu1 w2 sg2 tu2} (h1 : DihedralAction w1 sg1 tu1)
    (h2 : DihedralAction w2 sg2 tu2) :
    DihedralAction (fun s => w1 (w2 s)) (fun q => sg2 (sg1 q)) (fun q => tu1 (tu2 q)) := by
  constructor
  · intro s hs
    exact h1.lt _ (h2.lt _ hs)
  · intro s hs q hq
    show sqPieces (w1 (w2 s)) q = sqPieces s (sg2 (sg1 q))
    rw [h1.sq (w2 s) (h2.lt _ hs) q hq, h2.sq s hs (sg1 q) (h1.sigma_lt q hq)]
  · intro q hq
    exact h2.sigma_lt _ (h1.sigma_lt _ hq)
  · intro q hq
    exact h1.tau_lt _ (h2.tau_lt _ hq)
  · intro q hq
    show sg2 (sg1 (tu1 (tu2 q))) = q
    rw [h1.sigma_tau _ (h2.tau_lt _ hq), h2.sigma_tau _ hq]
  · intro q hq j hj
    show w1 (w2 (1 <<< (6 * q + j))) = 1 <<< (6 * tu1 (tu2 q) + j)
    rw [h2.bit q hq j hj, h1.bit _ (h2.tau_lt _ hq) j hj]
  · intro a ha b hb
    show w1 (w2 (a ^^^ b)) = w1 (w2 a) ^^^ w1 (w2 b)
    rw [h2.xor _ ha _ hb, h1.xor _ (h2.lt _ ha) _ (h2.lt _ hb)]
  · intro s hs
    show swap (w1 (w2 s)) = w1 (w2 (swap s))
    rw [h1.swapc _ (h2.lt _ hs), h2.swapc _ hs]
  · intro s hs
    show get_terminal_value (w1 (w2 s)) = get_terminal_value s
    rw [h1.gtv _ (h2.lt _ hs), h2.gtv _ hs]
  · intro s hs
    show canonical (w1 (w2 s)) = canonical s
    rw [h1.canon _ (h2.lt _ hs), h2.canon _ hs]

/-- Every word of the dihedral group carries a DihedralAction. -/
theorem da_words : ∀ w ∈ dihedralGroup, ∃ sg tu, DihedralAction w sg tu := by
  intro w hw
  simp only [dihedralGroup, List.mem_cons, List.not_mem_nil, or_false] at hw
  rcases hw with rfl | rfl | rfl | rfl | rfl | rfl | rfl | rfl
  · exact ⟨_, _, da_id⟩
  · exact ⟨_, _, da_flipud⟩
  · exact ⟨_, _, da_comp da_antitranspose da_flipud⟩
  · exact ⟨_, _, da_comp da_flipud (da_comp da_antitranspose da_flipud)⟩
  · exact ⟨_, _, da_comp da_antitranspose
      (da_comp da_flipud (da_comp da_antitranspose da_flipud))⟩
  · exact ⟨_, _, da_comp da_flipud (da_comp da_antitranspose
      (da_comp da_flipud (da_comp da_antitranspose da_flipud)))⟩
  · exact ⟨_, _, da_comp da_antitranspose (da_comp da_flipud (da_comp da_antitranspose
      (da_comp da_flipud (da_comp da_antitranspose da_flipud))))⟩
  · exact ⟨_, _, da_comp da_flipud (da_comp da_antitranspose (da_comp da_flipud
      (da_comp da_antitranspose (da_comp da_flipud
        (da_comp da_antitranspose da_flipud)))))⟩

/-- The candidates examined by canonical are exactly the dihedral images. -/
theorem orbitList_eq_map (s : Nat) : orbitList s = dihedralGroup.map (fun g => g s) := rfl

/-- canonical s is the image of s under some dihedral word. -/
theorem canonical_eq_word (s : Nat) : ∃ w ∈ dihedralGroup, canonical s = w s := by
  have h := canonical_mem s
  rw [orbitList_eq_map] at h
  obtain ⟨g, hg, hgs⟩ := List.mem_map.mp h
  exact ⟨g, hg, hgs.symm⟩

/-! ## Stack facts for placement and removal -/

/-- Placing a piece of size sz on a strictly smaller stack puts the current
player's pattern 01 on top: the resulting owner is 1 and the size is sz. -/
theorem stack_place : ∀ sz, sz < 4 → ∀ p2, p2 < 16 → 1 ≤ sz →
    p2 < 1 <<< (2 * (sz - 1)) →
    topPiece (p2 ^^^ 1 <<< (2 * (sz - 1))) = 1 ∧
      topSize (p2 ^^^ 1 <<< (2 * (sz - 1))) = sz := by
  decide

/-- A 6-bit stack whose top piece is the current player's: the top size is
in 1..3 and removing the top piece by XOR leaves a strictly smaller stack. -/
theorem stack_remove : ∀ f, f < 64 → topPiece f = 1 →
    1 ≤ topSize f ∧ topSize f ≤ 3 ∧
      f ^^^ 1 <<< (2 * (topSize f - 1)) < 1 <<< (2 * (topSize f - 1)) ∧
      ¬ 1 <<< (2 * (topSize f - 1)) > f := by
  decide

/-! ## Square stacks under XOR and single bits -/

theorem sqPieces_lt (s q : Nat) : sqPieces s q < 64 := by
  unfold sqPieces
  have h : (0x3f : Nat) = 2 ^ 6 - 1 := by norm_num
  rw [h, Nat.and_pow_two_sub_one_eq_mod]
  omega

theorem sqPieces_xor (a b q : Nat) : sqPieces (a ^^^ b) q = sqPieces a q ^^^ sqPieces b q := by
  unfold sqPieces
  apply Nat.eq_of_testBit_eq
  intro j
  simp only [Nat.testBit_and, Nat.testBit_shiftRight, Nat.testBit_xor]
  cases h1 : a.testBit (6 * q + j) <;> cases h2 : b.testBit (6 * q + j) <;>
    cases h3 : (0x3f : Nat).testBit j <;> rfl

theorem sqPieces_shift {en j q : Nat} (hen : en < 9) (hj : j < 6) (hq : q < 9) :
    sqPieces (1 <<< (6 * en + j)) q = if q = en then 1 <<< j else 0 := by
  unfold sqPieces
  apply Nat.eq_of_testBit_eq
  intro r
  have h63 : (0x3f : Nat) = 2 ^ 6 - 1 := by norm_num
  simp only [Nat.testBit_and, Nat.testBit_shiftRight, testBit_one_shiftLeft, h63,
    Nat.testBit_two_pow_sub_one]
  by_cases hqe : q = en
  · subst hqe
    rw [if_pos rfl, testBit_one_shiftLeft]
    by_cases hrj : r = j
    · subst hrj
      simp [hj]
    · have hne : ¬ (6 * q + j = 6 * q + r) := by omega
      have hne2 : ¬ (j = r) := fun hh => hrj hh.symm
      simp [hne, hne2]
  · rw [if_neg hqe, Nat.zero_testBit]
    by_cases hr : r < 6
    · have hne : ¬ (6 * en + j = 6 * q + r) := by
        intro hh
        exact hqe (by omega)
      simp [hne]
    · simp [hr]

theorem sqPieces_xor_bit {s : Nat} {en j q : Nat} (hen : en < 9) (hj : j < 6) (hq : q < 9) :
    sqPieces (s ^^^ 1 <<< (6 * en + j)) q =
      if q = en then sqPieces s q ^^^ 1 <<< j else sqPieces s q := by
  rw [sqPieces_xor, sqPieces_shift hen hj hq]
  by_cases h : q = en
  · rw [if_pos h, if_pos h]
  · rw [if_neg h, if_neg h, Nat.xor_zero]

/-! ## Fold membership helpers -/

theorem foldl_pair_inv {α : Type} (f : (List Move × List Nat) → α → (List Move × List Nat))
    (P : Move → Prop) :
    ∀ (l : List α) (acc : List Move × List Nat),
      (∀ m ∈ acc.1, P m) →
      (∀ acc2 a, a ∈ l → (∀ m ∈ acc2.1, P m) → ∀ m ∈ (f acc2 a).1, P m) →
      ∀ m ∈ (List.foldl f acc l).1, P m := by
  intro l
  induction l with
  | nil =>
    intro acc hacc _ m hm
    exact hacc m hm
  | cons a tl ih =>
    intro acc hacc hf m hm
    rw [List.foldl_cons] at hm
    exact ih (f acc a) (hf acc a (by simp) hacc)
      (fun acc2 a' ha' => hf acc2 a' (by simp [ha'])) m hm

theorem insertState_self (x : Nat) (xs : List Nat) : x ∈ insertState x xs := by
  unfold insertState
  split_ifs with h
  · exact h
  · exact List.mem_cons_self x xs

theorem insertState_mono {x : Nat} {xs : List Nat} (h : x ∈ xs) (y : Nat) :
    x ∈ insertState y xs := by
  unfold insertState
  split_ifs with h2
  · exact h
  · exact List.mem_cons_of_mem y h

theorem foldl_nat_mono {α : Type} (f : List Nat → α → List Nat)
    (hf : ∀ acc a, ∀ x ∈ acc, x ∈ f acc a) :
    ∀ (l : List α) (acc : List Nat) (x : Nat), x ∈ acc → x ∈ List.foldl f acc l := by
  intro l
  induction l with
  | nil =>
    intro acc x hx
    exact hx
  | cons a tl ih =>
    intro acc x hx
    rw [List.foldl_cons]
    exact ih _ x (hf acc a x hx)

theorem foldl_nat_insert {α : Type} (f : List Nat → α → List Nat) (x : Nat)
    (hf : ∀ acc a, ∀ y ∈ acc, y ∈ f acc a) :
    ∀ (l : List α) (e : α), e ∈ l → (∀ acc, x ∈ f acc e) →
      ∀ acc, x ∈ List.foldl f acc l := by
  intro l
  induction l with
  | nil =>
    intro e he
    exact absurd he (List.not_mem_nil e)
  | cons a tl ih =>
    intro e he hstep acc
    rw [List.foldl_cons]
    rcases List.mem_cons.mp he with rfl | he'
    · exact foldl_nat_mono f hf tl (f acc e) x (hstep acc)
    · exact ih e he' hstep (f acc a)


/-! ## Soundness of get_moves: every produced move passes its guards -/

theorem addMove_mem_sound {s : Nat} {m m' : Move} {acc : List Move × List Nat}
    (h : m' ∈ (addMove s m acc).1) : m' ∈ acc.1 ∨ m' = m := by
  simp only [addMove] at h
  split_ifs at h with hc
  · exact Or.inl h
  · rcases List.mem_append.mp h with h1 | h1
    · exact Or.inl h1
    · exact Or.inr (List.mem_singleton.mp h1)

/-- Every move produced by get_moves is a new-piece placement passing the
availability and size guards, or (when allowed) a board move passing the
ownership and size guards. -/
theorem get_moves_sound (r : Rules) (s : Nat) :
    ∀ m ∈ get_moves r s,
      (∃ sz, 1 ≤ sz ∧ sz ≤ r.num_sizes ∧ played s (sz - 1) < r.num_per_size ∧
        ∃ en, en < 9 ∧ 1 <<< (2 * (sz - 1)) > sqPieces s en ∧
          m = ⟨-(sz : Int), (en : Int)⟩) ∨
      (r.allow_move = true ∧ ∃ st, st < 9 ∧ topPiece (sqPieces s st) = 1 ∧
        ∃ en, en < 9 ∧ 1 <<< (2 * (topSize (sqPieces s st) - 1)) > sqPieces s en ∧
          m = ⟨(st : Int), (en : Int)⟩) := by
  unfold get_moves
  refine foldl_pair_inv (gmPlaceStep r s) _ _ _ ?_ ?_
  · refine foldl_pair_inv (gmRelocStep r s) _ _ _ ?_ ?_
    · intro m hm
      simp at hm
    · intro acc2 st hst hacc2 m' hm'
      rw [List.mem_range] at hst
      simp only [gmRelocStep] at hm'
      by_cases hc : (r.allow_move && (topPiece (sqPieces s st) == 1)) = true
      · rw [if_pos hc] at hm'
        refine foldl_pair_inv (gmRelocInner s st (topSize (sqPieces s st))) _ _ _ hacc2
          ?_ m' hm'
        intro acc3 en hen hacc3 m'' hm''
        rw [List.mem_range] at hen
        simp only [gmRelocInner] at hm''
        by_cases hg : 1 <<< (2 * (topSize (sqPieces s st) - 1)) > sqPieces s en
        · rw [if_pos hg] at hm''
          rcases addMove_mem_sound hm'' with h | rfl
          · exact hacc3 _ h
          · right
            rw [Bool.and_eq_true, beq_iff_eq] at hc
            exact ⟨hc.1, st, hst, hc.2, en, hen, hg, rfl⟩
        · rw [if_neg hg] at hm''
          exact hacc3 _ hm''
      · rw [if_neg hc] at hm'
        exact hacc2 _ hm'
  · intro acc2 sz hsz hacc2 m' hm'
    rw [List.mem_range'_1] at hsz
    simp only [gmPlaceStep] at hm'
    by_cases hp : played s (sz - 1) < r.num_per_size
    · rw [if_pos hp] at hm'
      refine foldl_pair_inv (gmPlaceInner s sz) _ _ _ hacc2 ?_ m' hm'
      intro acc3 en hen hacc3 m'' hm''
      rw [List.mem_range] at hen
      simp only [gmPlaceInner] at hm''
      by_cases hg : 1 <<< (2 * (sz - 1)) > sqPieces s en
      · rw [if_pos hg] at hm''
        rcases addMove_mem_sound hm'' with h | rfl
        · exact hacc3 _ h
        · left
          exact ⟨sz, hsz.1, by omega, hp, en, hen, hg, rfl⟩
      · rw [if_neg hg] at hm''
        exact hacc3 _ hm''
    · rw [if_neg hp] at hm'
      exact hacc2 _ hm'

/-! ## The two move shapes, executed -/

theorem move_place_eq {s : Nat} {sz en : Nat} (h1 : 1 ≤ sz) :
    move s ⟨-(sz : Int), (en : Int)⟩ = s ^^^ 1 <<< (6 * en + 2 * (sz - 1)) := by
  simp only [move]
  rw [if_neg (by omega : ¬ (-(sz : Int) ≥ 0))]
  have e1 : ((en : Int)).toNat = en := by omega
  have e2 : (-(-(sz : Int))).toNat = sz := by omega
  rw [e1, e2]

theorem move_reloc_eq {s : Nat} {st en : Nat} :
    move s ⟨(st : Int), (en : Int)⟩ =
      s ^^^ 1 <<< (6 * st + 2 * (topSize (sqPieces s st) - 1)) ^^^
        1 <<< (6 * en + 2 * (topSize (sqPieces s st) - 1)) := by
  simp only [move]
  rw [if_pos (by omega : ((st : Int)) ≥ 0)]
  have e1 : ((st : Int)).toNat = st := by omega
  have e2 : ((en : Int)).toNat = en := by omega
  rw [e1, e2]

theorem xor_cancel1 (a b : Nat) : a ^^^ b ^^^ b = a := by
  rw [Nat.xor_assoc, Nat.xor_self, Nat.xor_zero]

theorem xor_cancel2 (a b c : Nat) : a ^^^ b ^^^ c ^^^ c ^^^ b = a := by
  rw [Nat.xor_assoc (a ^^^ b), Nat.xor_self, Nat.xor_zero, Nat.xor_assoc, Nat.xor_self,
    Nat.xor_zero]

/-! ## Monotonicity of the unmove folds -/

theorem unmoveRelocInner_mono (S en sz : Nat) :
    ∀ acc a, ∀ y ∈ acc, y ∈ unmoveRelocInner S en sz acc a := by
  intro acc a y hy
  simp only [unmoveRelocInner]
  split_ifs with h1 h2
  · exact insertState_mono hy _
  · exact hy
  · exact hy

theorem unmoveStep_mono (r : Rules) (S : Nat) :
    ∀ acc a, ∀ y ∈ acc, y ∈ unmoveStep r S acc a := by
  intro acc a y hy
  simp only [unmoveStep]
  split_ifs with h1 h2 h3 h4
  · exact insertState_mono
      (foldl_nat_mono _ (unmoveRelocInner_mono S a (topSize (sqPieces S a))) _ _ _ hy) _
  · exact insertState_mono hy _
  · exact foldl_nat_mono _ (unmoveRelocInner_mono S a (topSize (sqPieces S a))) _ _ _ hy
  · exact hy
  · exact hy

/-! ## The unmove round trip for the two move shapes -/

theorem unmove_place (r : Rules) {s : Nat} (hs : s < 2 ^ 54)
    (hterm : get_terminal_value s = 0) {sz en : Nat} (hsz1 : 1 ≤ sz) (hsz3 : sz ≤ 3)
    (hen : en < 9) (hg : 1 <<< (2 * (sz - 1)) > sqPieces s en) :
    canonical s ∈ get_unmoves r (canonical (swap (move s ⟨-(sz : Int), (en : Int)⟩))) := by
  have hj : 2 * (sz - 1) < 6 := by omega
  have hmove := @move_place_eq s sz en hsz1
  have hblt : 1 <<< (6 * en + 2 * (sz - 1)) < 2 ^ 54 := shift_bit_lt hen hj
  have hu : move s ⟨-(sz : Int), (en : Int)⟩ < 2 ^ 54 := by
    rw [hmove]
    exact xor_lt_54 hs hblt
  obtain ⟨w, hwmem, hwu⟩ := canonical_eq_word (swap (move s ⟨-(sz : Int), (en : Int)⟩))
  obtain ⟨sg, tu, da⟩ := da_words w hwmem
  have htu : tu en < 9 := da.tau_lt en hen
  have hS : swap (canonical (swap (move s ⟨-(sz : Int), (en : Int)⟩))) =
      w (move s ⟨-(sz : Int), (en : Int)⟩) := by
    rw [hwu, da.swapc _ (swap_lt _), swap_swap hu]
  have hwS : w (s ^^^ 1 <<< (6 * en + 2 * (sz - 1))) =
      w s ^^^ 1 <<< (6 * tu en + 2 * (sz - 1)) := by
    rw [da.xor s hs _ hblt, da.bit en hen _ hj]
  simp only [get_unmoves]
  rw [hS, hmove, hwS]
  have hfield : sqPieces (w s ^^^ 1 <<< (6 * tu en + 2 * (sz - 1))) (tu en) =
      sqPieces s en ^^^ 1 <<< (2 * (sz - 1)) := by
    rw [sqPieces_xor_bit htu hj htu, if_pos rfl, da.sq s hs (tu en) htu,
      da.sigma_tau en hen]
  have h16 : (1 : Nat) <<< (2 * (sz - 1)) ≤ 16 := by
    rw [Nat.one_shiftLeft]
    calc (2 : Nat) ^ (2 * (sz - 1)) ≤ 2 ^ 4 := Nat.pow_le_pow_right (by norm_num) (by omega)
    _ = 16 := by norm_num
  have hp16 : sqPieces s en < 16 := by omega
  obtain ⟨htop, hsize⟩ := stack_place sz (by omega) (sqPieces s en) hp16 hsz1 hg
  refine foldl_nat_insert _ (canonical s) (unmoveStep_mono r _) (List.range 9) (tu en)
    (List.mem_range.mpr htu) ?_ []
  intro acc
  simp only [unmoveStep]
  rw [hfield, htop, hsize]
  rw [if_pos (show ((1 : Nat) == 1) = true from rfl)]
  rw [move_place_eq hsz1]
  rw [xor_cancel1 (w s), da.gtv s hs, hterm]
  rw [if_pos (show (((0 : Int)) == 0) = true from rfl)]
  rw [da.canon s hs]
  exact insertState_self _ _

theorem unmove_reloc (r : Rules) (hmv : r.allow_move = true) {s : Nat} (hs : s < 2 ^ 54)
    (hterm : get_terminal_value s = 0) {st en : Nat} (hst : st < 9) (hen : en < 9)
    (htp : topPiece (sqPieces s st) = 1)
    (hg : 1 <<< (2 * (topSize (sqPieces s st) - 1)) > sqPieces s en) :
    canonical s ∈ get_unmoves r (canonical (swap (move s ⟨(st : Int), (en : Int)⟩))) := by
  obtain ⟨hsz1, hsz3, hrest, hnog⟩ := stack_remove (sqPieces s st) (sqPieces_lt s st) htp
  have hj : 2 * (topSize (sqPieces s st) - 1) < 6 := by omega
  have hne : st ≠ en := by
    intro he
    rw [← he] at hg
    exact hnog hg
  have hmove := @move_reloc_eq s st en
  have hbst : 1 <<< (6 * st + 2 * (topSize (sqPieces s st) - 1)) < 2 ^ 54 :=
    shift_bit_lt hst hj
  have hben : 1 <<< (6 * en + 2 * (topSize (sqPieces s st) - 1)) < 2 ^ 54 :=
    shift_bit_lt hen hj
  have hu1 : s ^^^ 1 <<< (6 * st + 2 * (topSize (sqPieces s st) - 1)) < 2 ^ 54 :=
    xor_lt_54 hs hbst
  have hu : move s ⟨(st : Int), (en : Int)⟩ < 2 ^ 54 := by
    rw [hmove]
    exact xor_lt_54 hu1 hben
  obtain ⟨w, hwmem, hwu⟩ := canonical_eq_word (swap (move s ⟨(st : Int), (en : Int)⟩))
  obtain ⟨sg, tu, da⟩ := da_words w hwmem
  have htuen : tu en < 9 := da.tau_lt en hen
  have htust : tu st < 9 := da.tau_lt st hst
  have htu_ne : tu en ≠ tu st := by
    intro he
    have h1 : sg (tu en) = sg (tu st) := by rw [he]
    rw [da.sigma_tau en hen, da.sigma_tau st hst] at h1
    exact hne h1.symm
  have hS : swap (canonical (swap (move s ⟨(st : Int), (en : Int)⟩))) =
      w (move s ⟨(st : Int), (en : Int)⟩) := by
    rw [hwu, da.swapc _ (swap_lt _), swap_swap hu]
  have hwS : w (s ^^^ 1 <<< (6 * st + 2 * (topSize (sqPieces s st) - 1)) ^^^
        1 <<< (6 * en + 2 * (topSize (sqPieces s st) - 1))) =
      w s ^^^ 1 <<< (6 * tu st + 2 * (topSize (sqPieces s st) - 1)) ^^^
        1 <<< (6 * tu en + 2 * (topSize (sqPieces s st) - 1)) := by
    rw [da.xor _ hu1 _ hben, da.xor s hs _ hbst, da.bit st hst _ hj, da.bit en hen _ hj]
  simp only [get_unmoves]
  rw [hS, hmove, hwS]
  -- stacks of the successor in the unmover's frame
  have hfield_en : sqPieces (w s ^^^ 1 <<< (6 * tu st + 2 * (topSize (sqPieces s st) - 1)) ^^^
        1 <<< (6 * tu en + 2 * (topSize (sqPieces s st) - 1))) (tu en) =
      sqPieces s en ^^^ 1 <<< (2 * (topSize (sqPieces s st) - 1)) := by
    rw [sqPieces_xor_bit htuen hj htuen, if_pos rfl, sqPieces_xor_bit htust hj htuen,
      if_neg htu_ne, da.sq s hs (tu en) htuen, da.sigma_tau en hen]
  have hfield_st : sqPieces (w s ^^^ 1 <<< (6 * tu st + 2 * (topSize (sqPieces s st) - 1)) ^^^
        1 <<< (6 * tu en + 2 * (topSize (sqPieces s st) - 1))) (tu st) =
      sqPieces s st ^^^ 1 <<< (2 * (topSize (sqPieces s st) - 1)) := by
    rw [sqPieces_xor_bit htuen hj htust, if_neg (Ne.symm htu_ne),
      sqPieces_xor_bit htust hj htust, if_pos rfl, da.sq s hs (tu st) htust,
      da.sigma_tau st hst]
  have h16 : (1 : Nat) <<< (2 * (topSize (sqPieces s st) - 1)) ≤ 16 := by
    rw [Nat.one_shiftLeft]
    calc (2 : Nat) ^ (2 * (topSize (sqPieces s st) - 1)) ≤ 2 ^ 4 :=
      Nat.pow_le_pow_right (by norm_num) (by omega)
    _ = 16 := by norm_num
  have hp16 : sqPieces s en < 16 := by omega
  obtain ⟨htop, hsize⟩ :=
    stack_place (topSize (sqPieces s st)) (by omega) (sqPieces s en) hp16 hsz1 hg
  refine foldl_nat_insert _ (canonical s) (unmoveStep_mono r _) (List.range 9) (tu en)
    (List.mem_range.mpr htuen) ?_ []
  intro acc
  simp only [unmoveStep]
  rw [hfield_en, htop, hsize]
  rw [if_pos (show ((1 : Nat) == 1) = true from rfl), hmv]
  rw [if_pos (show (true = true) from rfl)]
  have hxA : canonical s ∈ (List.range 9).foldl
      (unmoveRelocInner (w s ^^^ 1 <<< (6 * tu st + 2 * (topSize (sqPieces s st) - 1)) ^^^
        1 <<< (6 * tu en + 2 * (topSize (sqPieces s st) - 1))) (tu en)
        (topSize (sqPieces s st))) acc := by
    refine foldl_nat_insert _ (canonical s) (unmoveRelocInner_mono _ _ _) (List.range 9)
      (tu st) (List.mem_range.mpr htust) ?_ acc
    intro acc2
    simp only [unmoveRelocInner]
    rw [hfield_st]
    rw [if_pos hrest]
    rw [move_reloc_eq, hfield_en, hsize]
    rw [xor_cancel2 (w s), da.gtv s hs, hterm]
    rw [if_pos (show (((0 : Int)) == 0) = true from rfl)]
    rw [da.canon s hs]
    exact insertState_self _ _
  split_ifs with hgt
  · exact insertState_mono hxA _
  · exact hxA


/-! ## Claim C4 -/

/-- Counterexample to claim C4 as stated: from a terminal state (three side-
to-move pieces across the top row) with a still-legal placement, the
canonical source state is not among the unmoves of the canonical successor,
because get_unmoves discards predecessors whose game was already over. -/
theorem claim_C4_counterexample :
    get_terminal_value (1 + 2 ^ 6 + 2 ^ 12) = 1 ∧
    (⟨-1, 3⟩ : Move) ∈ get_moves ⟨1, 5, false⟩ (1 + 2 ^ 6 + 2 ^ 12) ∧
    canonical (1 + 2 ^ 6 + 2 ^ 12) ∉
      get_unmoves ⟨1, 5, false⟩
        (canonical (swap (move (1 + 2 ^ 6 + 2 ^ 12) ⟨-1, 3⟩))) := by
  decide

/-- Claim C4 (amended): for every rule set with at most three piece sizes,
every 54-bit non-terminal state s, and every move m of get_moves, the
canonical form of s appears in get_unmoves of the canonical swapped
successor.  The non-terminal hypothesis is necessary, as get_unmoves keeps
only predecessors whose terminal value is zero. -/
theorem claim_C4_move_unmove (r : Rules) (s : Nat) (m : Move)
    (hns : r.num_sizes ≤ 3) (hs : s < 2 ^ 54) (hterm : get_terminal_value s = 0)
    (hm : m ∈ get_moves r s) :
    canonical s ∈ get_unmoves r (canonical (swap (move s m))) := by
  rcases get_moves_sound r s m hm with ⟨sz, h1, h3, hpl, en, hen9, hg, rfl⟩ |
    ⟨hmv, st, hst9, htp, en, hen9, hg, rfl⟩
  · exact unmove_place r hs hterm h1 (le_trans h3 hns) hen9 hg
  · exact unmove_reloc r hmv hs hterm hst9 hen9 htp hg

/-- Witness for the amended claim C4: the one-piece board s = 1 with the
size-1 placement on square 1. -/
theorem claim_C4_witness :
    ((⟨1, 5, false⟩ : Rules).num_sizes ≤ 3 ∧ (1 : Nat) < 2 ^ 54 ∧
      get_terminal_value 1 = 0 ∧ (⟨-1, 1⟩ : Move) ∈ get_moves ⟨1, 5, false⟩ 1) ∧
    canonical 1 ∈ get_unmoves ⟨1, 5, false⟩ (canonical (swap (move 1 ⟨-1, 1⟩))) :=
  ⟨⟨by decide, by decide, by decide, by decide⟩,
    claim_C4_move_unmove ⟨1, 5, false⟩ 1 ⟨-1, 1⟩ (by decide) (by decide) (by decide)
      (by decide)⟩

end Gobblet
